import Mathlib

/-!
Verification development for the ovos-padatious intent parser.

This file gives a shallow embedding of the core data model and operations of
the `ovos_padatious` package (tokenization, id management, training-example
conflict resolution, positional entity extraction, intent matching, domain
routing and final candidate selection) and proves properties about them.

Modelling conventions:
* Python floats are modelled as real numbers (`ℝ`) where square roots occur
  and as rationals (`ℚ`) in purely order-theoretic code.
* Python dicts (which preserve insertion order) are modelled as association
  lists (`List (key × value)`) with append-on-new-key semantics.
* Python `str.isdigit` / `str.isalpha` / `str.lower` are modelled by their
  ASCII behaviour.
* Neural-network evaluations (`fann` nets) are opaque real-valued functions.
-/

namespace Padatious

/-! ### Character model (ASCII model of the Python predicates) -/

/-- ASCII model of Python `str.lower` applied to a single character
(`ord` range 65–90 is shifted by 32, everything else unchanged). -/
def pyLower (c : Char) : Char :=
  if 65 ≤ c.toNat ∧ c.toNat ≤ 90 then Char.ofNat (c.toNat + 32) else c

/-- `IdManager.adj_token` (src/ovos_padatious/id_manager.py): Python
`token.isdigit()` on the ASCII model — nonempty and all characters digits. -/
def pyIsDigitStr (s : List Char) : Bool :=
  !s.isEmpty && s.all Char.isDigit

/-- Python `token.replace(old, new)` for single characters. -/
def replaceAll (s : List Char) (old new : Char) : List Char :=
  s.map fun c => if c = old then new else c

/-- `IdManager.adj_token` body (src/ovos_padatious/id_manager.py): when the
token is all digits, loop `i` over `0..9` replacing `str(i)` by `'#'`
whenever it occurs. -/
def adjTokenL (token : List Char) : List Char :=
  if pyIsDigitStr token then
    (List.range 10).foldl
      (fun tk i =>
        if tk.contains (Nat.digitChar i) then replaceAll tk (Nat.digitChar i) '#' else tk)
      token
  else token

/-- `IdManager.adj_token` on strings. -/
def adjToken (token : String) : String :=
  ⟨adjTokenL token.data⟩

/-! ### IdManager (src/ovos_padatious/id_manager.py) -/

/-- The `ids` dict of an `IdManager`, as an insertion-ordered association
list from token to dense integer id. -/
abbrev IdMap := List (String × ℕ)

/-- `IdManager.add_token`: adjust the token, and if the adjusted form is not
yet a key, append it with id `len(ids)`. -/
def addToken (m : IdMap) (token : String) : IdMap :=
  let t := adjToken token
  if t ∈ m.map Prod.fst then m else m ++ [(t, m.length)]

/-- Replay a sequence of `add_token` calls starting from an empty manager. -/
def applyTokens (ts : List String) : IdMap :=
  ts.foldl addToken []

theorem char_isDigit_toNat {c : Char} (h : c.isDigit = true) :
    48 ≤ c.toNat ∧ c.toNat ≤ 57 := by
  simp only [Char.isDigit, decide_eq_true_eq, Bool.and_eq_true, ge_iff_le] at h
  exact ⟨h.1, h.2⟩

theorem char_isDigit_cases {c : Char} (h : c.isDigit = true) :
    c = '0' ∨ c = '1' ∨ c = '2' ∨ c = '3' ∨ c = '4' ∨
    c = '5' ∨ c = '6' ∨ c = '7' ∨ c = '8' ∨ c = '9' := by
  obtain ⟨h1, h2⟩ := char_isDigit_toNat h
  have hc : Char.ofNat c.toNat = c := Char.ofNat_toNat c
  set n := c.toNat with hn
  interval_cases n <;> rw [← hc] <;> simp_all

theorem replace_step (tk : List Char) (old new : Char) :
    (if tk.contains old then replaceAll tk old new else tk) = replaceAll tk old new := by
  by_cases h : tk.contains old = true
  · rw [if_pos h]
  · rw [if_neg h]
    have h' : old ∉ tk := by simpa using h
    unfold replaceAll
    conv_lhs => rw [← List.map_id tk]
    refine List.map_congr_left fun c hc => ?_
    have : c ≠ old := fun e => h' (e ▸ hc)
    simp [this]

set_option maxHeartbeats 800000 in
theorem adjTokenL_allDigit {t : List Char} (h : pyIsDigitStr t = true) :
    adjTokenL t = t.map fun _ => '#' := by
  unfold adjTokenL
  rw [if_pos h]
  have hr : List.range 10 = [0, 1, 2, 3, 4, 5, 6, 7, 8, 9] := rfl
  rw [hr]
  simp only [List.foldl_cons, List.foldl_nil]
  rw [replace_step, replace_step, replace_step, replace_step, replace_step,
    replace_step, replace_step, replace_step, replace_step, replace_step]
  simp only [show Nat.digitChar 0 = '0' from rfl, show Nat.digitChar 1 = '1' from rfl,
    show Nat.digitChar 2 = '2' from rfl, show Nat.digitChar 3 = '3' from rfl,
    show Nat.digitChar 4 = '4' from rfl, show Nat.digitChar 5 = '5' from rfl,
    show Nat.digitChar 6 = '6' from rfl, show Nat.digitChar 7 = '7' from rfl,
    show Nat.digitChar 8 = '8' from rfl, show Nat.digitChar 9 = '9' from rfl]
  simp only [replaceAll, List.map_map]
  refine List.map_congr_left fun c hc => ?_
  have hd : c.isDigit = true := by
    simp only [pyIsDigitStr, Bool.and_eq_true, List.all_eq_true] at h
    exact h.2 c hc
  rcases char_isDigit_cases hd with rfl | rfl | rfl | rfl | rfl | rfl | rfl | rfl | rfl | rfl <;>
    decide

theorem adjTokenL_not_allDigit {t : List Char} (h : ¬ pyIsDigitStr t = true) :
    adjTokenL t = t := by
  unfold adjTokenL
  rw [if_neg h]

theorem addToken_keys_and_vals (m : IdMap)
    (hk : (m.map Prod.fst).Nodup) (hv : m.map Prod.snd = List.range m.length) (t : String) :
    ((addToken m t).map Prod.fst).Nodup ∧
      (addToken m t).map Prod.snd = List.range (addToken m t).length := by
  unfold addToken
  by_cases h : adjToken t ∈ m.map Prod.fst
  · simp [h, hk, hv]
  · simp only [h, if_false]
    constructor
    · rw [List.map_append, List.nodup_append]
      refine ⟨hk, by simp, ?_⟩
      intro a ha
      simp only [List.map_cons, List.map_nil, List.mem_singleton]
      rintro rfl
      exact h ha
    · simp [hv, List.range_succ]

theorem foldl_addToken_inv (ts : List String) :
    ∀ m : IdMap, (m.map Prod.fst).Nodup → m.map Prod.snd = List.range m.length →
      ((ts.foldl addToken m).map Prod.fst).Nodup ∧
        (ts.foldl addToken m).map Prod.snd = List.range (ts.foldl addToken m).length := by
  induction ts with
  | nil => exact fun m hk hv => ⟨hk, hv⟩
  | cons t ts ih =>
    intro m hk hv
    obtain ⟨hk', hv'⟩ := addToken_keys_and_vals m hk hv t
    exact ih (addToken m t) hk' hv'

theorem foldl_addToken_ext (ts : List String) :
    ∀ m : IdMap, ∃ ext, ts.foldl addToken m = m ++ ext := by
  induction ts with
  | nil => exact fun m => ⟨[], by simp⟩
  | cons t ts ih =>
    intro m
    obtain ⟨e, he⟩ := ih (addToken m t)
    by_cases h : adjToken t ∈ m.map Prod.fst
    · refine ⟨e, ?_⟩
      simpa [addToken, h] using he
    · refine ⟨(adjToken t, m.length) :: e, ?_⟩
      simp only [List.foldl_cons]
      rw [he]
      simp [addToken, h]

/-- C7: replaying any sequence of `IdManager.add_token` calls from an empty
manager keeps the token→id map injective with value set exactly
`{0, …, len-1}`; adding a token whose adjusted form is present is a no-op,
and later calls only extend the map, so an id is never reused or
reassigned. -/
theorem idManager_add_token_spec (ts : List String) :
    ((applyTokens ts).map Prod.fst).Nodup ∧
    (applyTokens ts).map Prod.snd = List.range (applyTokens ts).length ∧
    (∀ p ∈ applyTokens ts, ∀ q ∈ applyTokens ts, p.2 = q.2 → p = q) ∧
    (∀ tok : String, adjToken tok ∈ (applyTokens ts).map Prod.fst →
        addToken (applyTokens ts) tok = applyTokens ts) ∧
    (∀ more : List String, ∃ ext, applyTokens (ts ++ more) = applyTokens ts ++ ext) := by
  obtain ⟨hk, hv⟩ := foldl_addToken_inv ts [] (by simp) (by simp)
  refine ⟨hk, hv, ?_, ?_, ?_⟩
  · have hv2 : (applyTokens ts).map Prod.snd = List.range (applyTokens ts).length := hv
    have hsnd : ((applyTokens ts).map Prod.snd).Nodup := by
      rw [hv2]; exact List.nodup_range _
    exact fun p hp q hq hpq => List.inj_on_of_nodup_map hsnd hp hq hpq
  · intro tok h
    simp [addToken, h]
  · intro more
    unfold applyTokens
    rw [List.foldl_append]
    exact foldl_addToken_ext more (applyTokens ts)

/-- Witness for C7 at a concrete call sequence. -/
theorem idManager_add_token_spec_witness :
    addToken (applyTokens ["a", "b"]) "a" = applyTokens ["a", "b"] ∧
    (∃ ext, applyTokens (["a", "b"] ++ ["c"]) = applyTokens ["a", "b"] ++ ext) :=
  ⟨(idManager_add_token_spec ["a", "b"]).2.2.2.1 "a" (by decide),
   (idManager_add_token_spec ["a", "b"]).2.2.2.2 ["c"]⟩

/-- C8: `IdManager.adj_token` replaces each digit by `'#'` exactly when the
token is all digits (so the adjusted all-digit token contains no digit) and
returns the token unchanged otherwise. -/
theorem adj_token_digit_fold (t : String) :
    (t.data.all Char.isDigit = true →
      (adjToken t).data = t.data.map fun c => if c.isDigit then '#' else c) ∧
    (¬ t.data.all Char.isDigit = true → adjToken t = t) ∧
    (t.data.all Char.isDigit = true → ∀ c ∈ (adjToken t).data, ¬ c.isDigit = true) := by
  by_cases hall : t.data.all Char.isDigit = true
  · by_cases hemp : t.data.isEmpty = true
    · have hnil : t.data = [] := by simpa [List.isEmpty_iff] using hemp
      have : adjToken t = t := by
        unfold adjToken
        rw [adjTokenL_not_allDigit (by simp [pyIsDigitStr, hemp])]
      refine ⟨fun _ => ?_, fun h => absurd hall h, fun _ c hc => ?_⟩
      · rw [this, hnil]; simp
      · rw [this, hnil] at hc; simp at hc
    · have hdig : pyIsDigitStr t.data = true := by
        simp only [pyIsDigitStr, Bool.and_eq_true, Bool.not_eq_true']
        exact ⟨by simpa using hemp, hall⟩
      have hmap : (adjToken t).data = t.data.map fun _ => '#' := by
        unfold adjToken
        rw [adjTokenL_allDigit hdig]
      refine ⟨fun _ => ?_, fun h => absurd hall h, fun _ c hc => ?_⟩
      · rw [hmap]
        refine List.map_congr_left fun c hc => ?_
        have : c.isDigit = true := by
          simp only [List.all_eq_true] at hall
          exact hall c hc
        simp [this]
      · rw [hmap] at hc
        simp only [List.mem_map] at hc
        obtain ⟨a, _, rfl⟩ := hc
        decide
  · have hnd : ¬ pyIsDigitStr t.data = true := by
      simp only [pyIsDigitStr, Bool.and_eq_true, not_and]
      intro _
      simpa using hall
    have : adjToken t = t := by
      unfold adjToken
      rw [adjTokenL_not_allDigit hnd]
    exact ⟨fun h => absurd h hall, fun _ => this, fun h => absurd h hall⟩

/-- Witness for C8 on an all-digit and a mixed token. -/
theorem adj_token_digit_fold_witness :
    (adjToken "123").data = ("123" : String).data.map (fun c => if c.isDigit then '#' else c) ∧
    adjToken "a1" = "a1" :=
  ⟨(adj_token_digit_fold "123").1 (by decide), (adj_token_digit_fold "a1").2.1 (by decide)⟩

/-! ### Tokenizer (src/ovos_padatious/util.py, `tokenize`)

The Python function classifies every character as alpha (`isalpha` or one of
`-{}`), number (`isdigit` or `#`), space (`isspace`) or other, emits the
accumulated lowercased slice at every category change (and at every "other"
character), and drops tokens that are substrings of `".!?"`. -/

/-- Character category of the tokenizer: `'a'`, `'n'`, `'s'` or `'o'`. -/
def charType (c : Char) : Char :=
  if c.isAlpha ∨ c = '-' ∨ c = '{' ∨ c = '}' then 'a'
  else if c.isDigit ∨ c = '#' then 'n'
  else if c.isWhitespace then 's'
  else 'o'

/-- Mutable state of the tokenizer loop (`tokens`, `Vars.start_pos`,
`Vars.last_type`); `start_pos = -1` is modelled as `none`. -/
structure LexState where
  tokens : List (List Char)
  startPos : Option ℕ
  lastType : Char

/-- Python `sentence[p:i]`. -/
def slice (s : List Char) (p i : ℕ) : List Char :=
  (s.drop p).take (i - p)

/-- The body of `update(c, i)` inside `tokenize`. -/
def lexUpdate (sentence : List Char) (st : LexState) (ic : ℕ × Char) : LexState :=
  let t := charType ic.2
  if t ≠ st.lastType ∨ t = 'o' then
    let toks :=
      match st.startPos with
      | some p =>
        let token := (slice sentence p ic.1).map pyLower
        if token <:+: ['.', '!', '?'] then st.tokens else st.tokens ++ [token]
      | none => st.tokens
    { tokens := toks, startPos := if t = 's' then none else some ic.1, lastType := t }
  else { st with lastType := t }

/-- `tokenize` on a character list: run `update` over `enumerate(sentence)`
and then once more with `(' ', len(sentence))`. -/
def tokenizeL (s : List Char) : List (List Char) :=
  ((s.enum ++ [(s.length, ' ')]).foldl (lexUpdate s) ⟨[], none, 'o'⟩).tokens

/-- `tokenize` on strings. -/
def tokenize (s : String) : List String :=
  (tokenizeL s.data).map fun l => ⟨l⟩

/-- Python `' '.join`, at the character level. -/
def joinL : List (List Char) → List Char
  | [] => []
  | [t] => t
  | t :: t2 :: ts => t ++ ' ' :: joinL (t2 :: ts)

/-- Python `' '.join` on strings. -/
def joinTokens (ts : List String) : String :=
  ⟨joinL (ts.map String.data)⟩

/-- Every token the machine ever emits: nonempty, not a substring of
`".!?"`, lowercase-fixed, and either a constant-category alpha run, a
constant-category number run, or a single "other" character. -/
def GoodTok (t : List Char) : Prop :=
  t ≠ [] ∧ ¬ (t <:+: ['.', '!', '?']) ∧ (∀ c ∈ t, pyLower c = c) ∧
    ((∀ c ∈ t, charType c = 'a') ∨ (∀ c ∈ t, charType c = 'n') ∨
      (t.length = 1 ∧ ∀ c ∈ t, charType c = 'o'))

theorem charType_cases (c : Char) :
    charType c = 'a' ∨ charType c = 'n' ∨ charType c = 's' ∨ charType c = 'o' := by
  unfold charType
  split
  · exact Or.inl rfl
  · split
    · exact Or.inr (Or.inl rfl)
    · split
      · exact Or.inr (Or.inr (Or.inl rfl))
      · exact Or.inr (Or.inr (Or.inr rfl))

set_option maxHeartbeats 1600000 in
theorem pyLower_idem (c : Char) : pyLower (pyLower c) = pyLower c := by
  by_cases h : 65 ≤ c.toNat ∧ c.toNat ≤ 90
  · obtain ⟨h1, h2⟩ := h
    have hc : Char.ofNat c.toNat = c := Char.ofNat_toNat c
    set n := c.toNat with hn
    interval_cases n <;> rw [← hc] <;> decide
  · unfold pyLower
    rw [if_neg h, if_neg h]

set_option maxHeartbeats 1600000 in
theorem charType_pyLower (c : Char) : charType (pyLower c) = charType c := by
  by_cases h : 65 ≤ c.toNat ∧ c.toNat ≤ 90
  · obtain ⟨h1, h2⟩ := h
    have hc : Char.ofNat c.toNat = c := Char.ofNat_toNat c
    set n := c.toNat with hn
    interval_cases n <;> rw [← hc] <;> decide
  · unfold pyLower
    rw [if_neg h]

/-! Stepping lemmas for the tokenizer machine. -/

theorem lex_step_o (s' : List Char) (c : Char) (hc : charType c = 'o')
    (n : ℕ) (toks : List (List Char)) (lt : Char) :
    lexUpdate s' ⟨toks, none, lt⟩ (n, c) = ⟨toks, some n, 'o'⟩ := by
  unfold lexUpdate
  simp [hc]

theorem lex_step_start (s' : List Char) (c : Char) (k : Char) (hc : charType c = k)
    (hk : k = 'a' ∨ k = 'n') (n : ℕ) (toks : List (List Char)) (lt : Char) (hlt : k ≠ lt) :
    lexUpdate s' ⟨toks, none, lt⟩ (n, c) = ⟨toks, some n, k⟩ := by
  unfold lexUpdate
  have hks : ¬ k = 's' := by rcases hk with rfl | rfl <;> decide
  simp [hc, hlt, hks]

theorem lex_run_cont (s' : List Char) (run : List Char) (k : Char) (hko : k ≠ 'o')
    (hcat : ∀ c ∈ run, charType c = k) :
    ∀ (m p : ℕ) (toks : List (List Char)),
      List.foldl (lexUpdate s') ⟨toks, some p, k⟩ (run.enumFrom m) = ⟨toks, some p, k⟩ := by
  induction run with
  | nil => intro m p toks; rfl
  | cons c rest ih =>
    intro m p toks
    have hc : charType c = k := hcat c (by simp)
    have hrest : ∀ c ∈ rest, charType c = k := fun c hc => hcat c (by simp [hc])
    simp only [List.enumFrom, List.foldl_cons]
    have hstep : lexUpdate s' ⟨toks, some p, k⟩ (m, c) = ⟨toks, some p, k⟩ := by
      unfold lexUpdate
      simp only [hc]
      rw [if_neg (by simp [hko])]
    rw [hstep]
    exact ih hrest (m + 1) p toks

theorem lex_run_token (s' : List Char) (run : List Char) (k : Char)
    (hk : k = 'a' ∨ k = 'n') (hrun : run ≠ []) (hcat : ∀ c ∈ run, charType c = k)
    (n : ℕ) (toks : List (List Char)) (lt : Char) (hlt : k ≠ lt) :
    List.foldl (lexUpdate s') ⟨toks, none, lt⟩ (run.enumFrom n) = ⟨toks, some n, k⟩ := by
  cases run with
  | nil => exact absurd rfl hrun
  | cons c rest =>
    have hc : charType c = k := hcat c (by simp)
    have hrest : ∀ x ∈ rest, charType x = k := fun x hx => hcat x (by simp [hx])
    simp only [List.enumFrom, List.foldl_cons]
    rw [lex_step_start s' c k hc hk n toks lt hlt]
    have hko : k ≠ 'o' := by rcases hk with rfl | rfl <;> decide
    exact lex_run_cont s' rest k hko hrest (n + 1) n toks

theorem slice_of_append (pre t post : List Char) :
    slice (pre ++ (t ++ post)) pre.length (pre.length + t.length) = t := by
  unfold slice
  rw [List.drop_left, Nat.add_sub_cancel_left, List.take_left]

theorem lex_step_space (pre t post : List Char) (toks : List (List Char)) (k : Char)
    (hks : k ≠ 's') (hlow : ∀ c ∈ t, pyLower c = c)
    (hinf : ¬ (t <:+: ['.', '!', '?'])) :
    lexUpdate (pre ++ (t ++ post)) ⟨toks, some pre.length, k⟩ (pre.length + t.length, ' ') =
      ⟨toks ++ [t], none, 's'⟩ := by
  unfold lexUpdate
  have hsp : charType ' ' = 's' := by decide
  simp only [hsp]
  rw [if_pos (Or.inl (by simpa using Ne.symm hks))]
  have hslice : slice (pre ++ (t ++ post)) pre.length (pre.length + t.length) = t :=
    slice_of_append pre t post
  have hmap : t.map pyLower = t := by
    conv_rhs => rw [← List.map_id t]
    exact List.map_congr_left hlow
  simp only [hslice, hmap]
  rw [if_neg hinf]
  simp

theorem lex_run_good (t : List Char) (hg : GoodTok t) (pre post : List Char)
    (toks : List (List Char)) (lt : Char) (hlt : lt = 'o' ∨ lt = 's') :
    List.foldl (lexUpdate (pre ++ (t ++ post))) ⟨toks, none, lt⟩
        (t.enumFrom pre.length ++ [(pre.length + t.length, ' ')]) =
      ⟨toks ++ [t], none, 's'⟩ := by
  obtain ⟨hne, hinf, hlow, hcat⟩ := hg
  rw [List.foldl_append]
  rcases hcat with hcat | hcat | hcat
  · have hk : ('a' : Char) = 'a' ∨ ('a' : Char) = 'n' := Or.inl rfl
    have hlt' : ('a' : Char) ≠ lt := by rcases hlt with rfl | rfl <;> decide
    rw [lex_run_token _ t 'a' hk hne hcat pre.length toks lt hlt']
    simpa using lex_step_space pre t post toks 'a' (by decide) hlow hinf
  · have hk : ('n' : Char) = 'a' ∨ ('n' : Char) = 'n' := Or.inr rfl
    have hlt' : ('n' : Char) ≠ lt := by rcases hlt with rfl | rfl <;> decide
    rw [lex_run_token _ t 'n' hk hne hcat pre.length toks lt hlt']
    simpa using lex_step_space pre t post toks 'n' (by decide) hlow hinf
  · obtain ⟨hlen, hocat⟩ := hcat
    obtain ⟨c, rfl⟩ : ∃ c, t = [c] := by
      cases t with
      | nil => simp at hlen
      | cons c rest =>
        cases rest with
        | nil => exact ⟨c, rfl⟩
        | cons d rest' => simp at hlen
    simp only [List.enumFrom, List.foldl_cons, List.foldl_nil]
    rw [lex_step_o _ c (hocat c (by simp)) pre.length toks lt]
    simpa using lex_step_space pre [c] post toks 'o' (by decide) hlow hinf

theorem lex_run_join (ts : List (List Char)) (hne : ts ≠ [])
    (hgood : ∀ t ∈ ts, GoodTok t) :
    ∀ (pre : List Char) (toks : List (List Char)) (lt : Char), lt = 'o' ∨ lt = 's' →
      List.foldl (lexUpdate (pre ++ joinL ts)) ⟨toks, none, lt⟩
          ((joinL ts).enumFrom pre.length ++ [((pre ++ joinL ts).length, ' ')]) =
        ⟨toks ++ ts, none, 's'⟩ := by
  induction ts with
  | nil => exact absurd rfl hne
  | cons t ts ih =>
    intro pre toks lt hlt
    cases ts with
    | nil =>
      have hj : joinL [t] = t := rfl
      rw [hj]
      have hlen : (pre ++ t).length = pre.length + t.length := List.length_append pre t
      rw [hlen]
      have ht : GoodTok t := hgood t (by simp)
      have := lex_run_good t ht pre [] toks lt hlt
      simpa using this
    | cons t2 ts2 =>
      have hj : joinL (t :: t2 :: ts2) = t ++ ' ' :: joinL (t2 :: ts2) := rfl
      rw [hj]
      have henum : (t ++ ' ' :: joinL (t2 :: ts2)).enumFrom pre.length =
          t.enumFrom pre.length ++
            ((pre.length + t.length, ' ') ::
              (joinL (t2 :: ts2)).enumFrom (pre.length + t.length + 1)) := by
        rw [List.enumFrom_append]
        simp [List.enumFrom]
      rw [henum]
      have hre : t.enumFrom pre.length ++
            ((pre.length + t.length, ' ') ::
              (joinL (t2 :: ts2)).enumFrom (pre.length + t.length + 1)) ++
            [((pre ++ (t ++ ' ' :: joinL (t2 :: ts2))).length, ' ')] =
          (t.enumFrom pre.length ++ [(pre.length + t.length, ' ')]) ++
            ((joinL (t2 :: ts2)).enumFrom (pre.length + t.length + 1) ++
              [((pre ++ (t ++ ' ' :: joinL (t2 :: ts2))).length, ' ')]) := by
        simp
      rw [hre, List.foldl_append]
      have ht : GoodTok t := hgood t (by simp)
      have hfirst := lex_run_good t ht pre (' ' :: joinL (t2 :: ts2)) toks lt hlt
      rw [hfirst]
      have hgood2 : ∀ x ∈ t2 :: ts2, GoodTok x := fun x hx => hgood x (by simp [hx])
      have hih := ih (by simp) hgood2 (pre ++ t ++ [' ']) (toks ++ [t]) 's' (Or.inr rfl)
      have hse : (pre ++ t ++ [' ']) ++ joinL (t2 :: ts2) =
          pre ++ (t ++ ' ' :: joinL (t2 :: ts2)) := by
        simp
      have hplen : (pre ++ t ++ [' ']).length = pre.length + t.length + 1 := by
        simp
        omega
      rw [hplen] at hih
      rw [hse] at hih
      rw [hih]
      simp

/-! Invariant: every token the machine has emitted is a `GoodTok`. -/

/-- Invariant of the tokenizer loop before processing index `i`. -/
def LexInv (s : List Char) (i : ℕ) (st : LexState) : Prop :=
  (∀ tk ∈ st.tokens, GoodTok tk) ∧
  (st.lastType = 's' → st.startPos = none) ∧
  ∀ p, st.startPos = some p →
    p < i ∧ st.lastType ≠ 's' ∧ (st.lastType = 'o' → i = p + 1) ∧
    (slice s p i).length = i - p ∧ ∀ c ∈ slice s p i, charType c = st.lastType

theorem slice_self (s : List Char) (p : ℕ) : slice s p p = [] := by
  simp [slice]

theorem slice_snoc {s : List Char} {i : ℕ} {c : Char} (hc : s[i]? = some c)
    {p : ℕ} (hpi : p ≤ i) : slice s p (i + 1) = slice s p i ++ [c] := by
  unfold slice
  have h1 : i + 1 - p = (i - p) + 1 := by omega
  rw [h1, List.take_succ]
  have h2 : (s.drop p)[i - p]? = some c := by
    rw [List.getElem?_drop]
    have : p + (i - p) = i := by omega
    rw [this]
    exact hc
  rw [h2]
  rfl

theorem goodTok_emit {s : List Char} {p i : ℕ} {lt : Char} (hpi : p < i)
    (hlen : (slice s p i).length = i - p)
    (hcat : ∀ c ∈ slice s p i, charType c = lt)
    (hlts : lt ≠ 's') (hlto : lt = 'o' → i = p + 1)
    (toks : List (List Char)) (htoks : ∀ tk ∈ toks, GoodTok tk) :
    ∀ tk ∈ (if (slice s p i).map pyLower <:+: ['.', '!', '?'] then toks
            else toks ++ [(slice s p i).map pyLower]), GoodTok tk := by
  by_cases hinf : (slice s p i).map pyLower <:+: ['.', '!', '?']
  · rw [if_pos hinf]; exact htoks
  · rw [if_neg hinf]
    intro tk htk
    rcases List.mem_append.mp htk with h | h
    · exact htoks tk h
    · simp only [List.mem_singleton] at h
      subst h
      have hne : slice s p i ≠ [] := by
        intro h0
        rw [h0] at hlen
        simp at hlen
        omega
      refine ⟨?_, hinf, ?_, ?_⟩
      · simpa using hne
      · intro c hcm
        obtain ⟨d, _, rfl⟩ := List.mem_map.mp hcm
        exact pyLower_idem d
      · obtain ⟨c0, hc0⟩ := List.exists_mem_of_ne_nil _ hne
        have hk := hcat c0 hc0
        rcases charType_cases c0 with h0 | h0 | h0 | h0
        · left
          intro c hcm
          obtain ⟨d, hd, rfl⟩ := List.mem_map.mp hcm
          rw [charType_pyLower, hcat d hd, ← hk, h0]
        · right; left
          intro c hcm
          obtain ⟨d, hd, rfl⟩ := List.mem_map.mp hcm
          rw [charType_pyLower, hcat d hd, ← hk, h0]
        · exact absurd (by rw [← hk, h0] : lt = 's') hlts
        · right; right
          have hlt0 : lt = 'o' := by rw [← hk, h0]
          constructor
          · rw [List.length_map, hlen, hlto hlt0]
            omega
          · intro c hcm
            obtain ⟨d, hd, rfl⟩ := List.mem_map.mp hcm
            rw [charType_pyLower, hcat d hd, hlt0]

theorem lexInv_newRun {s : List Char} {i : ℕ} {c : Char} (hc : s[i]? = some c)
    (toks : List (List Char)) (htoks : ∀ tk ∈ toks, GoodTok tk) :
    LexInv s (i + 1)
      ⟨toks, if charType c = 's' then none else some i, charType c⟩ := by
  refine ⟨htoks, ?_, ?_⟩
  · intro hts
    simp only at hts
    rw [if_pos hts]
  · intro p' hp'
    simp only at hp'
    by_cases hts : charType c = 's'
    · rw [if_pos hts] at hp'
      exact absurd hp' (by simp)
    · rw [if_neg hts] at hp'
      injection hp' with hp'
      subst hp'
      refine ⟨by omega, hts, fun _ => rfl, ?_, ?_⟩
      · rw [slice_snoc hc (le_refl _), slice_self]
        simp
      · intro d hd
        rw [slice_snoc hc (le_refl _), slice_self] at hd
        simp only [List.nil_append, List.mem_singleton] at hd
        subst hd
        rfl

theorem lexInv_step {s : List Char} {i : ℕ} {c : Char} {st : LexState}
    (hc : s[i]? = some c) (hinv : LexInv s i st) :
    LexInv s (i + 1) (lexUpdate s st (i, c)) := by
  obtain ⟨toks, sp, lt⟩ := st
  obtain ⟨htoks, hsn, hsp⟩ := hinv
  simp only at htoks hsn hsp
  cases sp with
  | none =>
    by_cases hcond : charType c ≠ lt ∨ charType c = 'o'
    · have hred : lexUpdate s ⟨toks, none, lt⟩ (i, c) =
          ⟨toks, if charType c = 's' then none else some i, charType c⟩ := by
        unfold lexUpdate
        rw [if_pos hcond]
      rw [hred]
      exact lexInv_newRun hc toks htoks
    · have hred : lexUpdate s ⟨toks, none, lt⟩ (i, c) = ⟨toks, none, charType c⟩ := by
        unfold lexUpdate
        rw [if_neg hcond]
      rw [hred]
      exact ⟨htoks, fun _ => rfl, fun p hp => absurd hp (by simp)⟩
  | some p =>
    obtain ⟨hp1, hp2, hp3, hp4, hp5⟩ := hsp p rfl
    by_cases hcond : charType c ≠ lt ∨ charType c = 'o'
    · have hred : lexUpdate s ⟨toks, some p, lt⟩ (i, c) =
          ⟨if (slice s p i).map pyLower <:+: ['.', '!', '?'] then toks
            else toks ++ [(slice s p i).map pyLower],
           if charType c = 's' then none else some i, charType c⟩ := by
        unfold lexUpdate
        rw [if_pos hcond]
      rw [hred]
      exact lexInv_newRun hc _ (goodTok_emit hp1 hp4 hp5 hp2 hp3 toks htoks)
    · have hred : lexUpdate s ⟨toks, some p, lt⟩ (i, c) =
          ⟨toks, some p, charType c⟩ := by
        unfold lexUpdate
        rw [if_neg hcond]
      rw [hred]
      push_neg at hcond
      obtain ⟨hceq, hco⟩ := hcond
      refine ⟨htoks, ?_, ?_⟩
      · intro hts
        simp only at hts
        exact absurd (by rw [← hceq, hts] : lt = 's') hp2
      · intro p' hp'
        simp only at hp'
        injection hp' with hp'
        subst hp'
        refine ⟨by omega, by rw [hceq]; exact hp2, fun h => absurd h hco, ?_, ?_⟩
        · rw [slice_snoc hc (le_of_lt hp1), List.length_append, hp4]
          simp
          omega
        · intro d hd
          rw [slice_snoc hc (le_of_lt hp1)] at hd
          rcases List.mem_append.mp hd with h | h
          · rw [hp5 d h, hceq]
          · simp only [List.mem_singleton] at h
            subst h
            rw [hceq]

theorem lexInv_final {s : List Char} {st : LexState}
    (hinv : LexInv s s.length st) :
    ∀ tk ∈ (lexUpdate s st (s.length, ' ')).tokens, GoodTok tk := by
  obtain ⟨toks, sp, lt⟩ := st
  obtain ⟨htoks, hsn, hsp⟩ := hinv
  simp only at htoks hsn hsp
  cases sp with
  | none =>
    by_cases hcond : charType ' ' ≠ lt ∨ charType ' ' = 'o'
    · have hred : (lexUpdate s ⟨toks, none, lt⟩ (s.length, ' ')).tokens = toks := by
        unfold lexUpdate
        rw [if_pos hcond]
      rw [hred]
      exact htoks
    · have hred : (lexUpdate s ⟨toks, none, lt⟩ (s.length, ' ')).tokens = toks := by
        unfold lexUpdate
        rw [if_neg hcond]
      rw [hred]
      exact htoks
  | some p =>
    obtain ⟨hp1, hp2, hp3, hp4, hp5⟩ := hsp p rfl
    by_cases hcond : charType ' ' ≠ lt ∨ charType ' ' = 'o'
    · have hred : (lexUpdate s ⟨toks, some p, lt⟩ (s.length, ' ')).tokens =
          (if (slice s p s.length).map pyLower <:+: ['.', '!', '?'] then toks
           else toks ++ [(slice s p s.length).map pyLower]) := by
        unfold lexUpdate
        rw [if_pos hcond]
      rw [hred]
      exact goodTok_emit hp1 hp4 hp5 hp2 hp3 toks htoks
    · have hred : (lexUpdate s ⟨toks, some p, lt⟩ (s.length, ' ')).tokens = toks := by
        unfold lexUpdate
        rw [if_neg hcond]
      rw [hred]
      exact htoks

theorem lexInv_run (s : List Char) :
    ∀ (tail : List Char) (i : ℕ) (st : LexState),
      tail = s.drop i → i ≤ s.length → LexInv s i st →
      LexInv s s.length (List.foldl (lexUpdate s) st (tail.enumFrom i)) := by
  intro tail
  induction tail with
  | nil =>
    intro i st htail hi hinv
    have : s.length ≤ i := by
      rw [← List.drop_eq_nil_iff]
      exact htail.symm
    have hieq : i = s.length := le_antisymm hi this
    subst hieq
    exact hinv
  | cons c rest ih =>
    intro i st htail hi hinv
    have hget : s[i]? = some c := by
      have h0 : (s.drop i)[0]? = some c := by rw [← htail]; simp
      rw [List.getElem?_drop] at h0
      simpa using h0
    have hlt : i < s.length := by
      by_contra hge
      have : s.drop i = [] := List.drop_eq_nil_of_le (by omega)
      rw [this] at htail
      exact absurd htail (by simp)
    have hrest : rest = s.drop (i + 1) := by
      have : (s.drop i).tail = s.drop (i + 1) := by
        rw [← List.drop_drop]
        simp [List.drop_one]
      rw [← this, ← htail]
      rfl
    simp only [List.enumFrom, List.foldl_cons]
    exact ih (i + 1) _ hrest (by omega) (lexInv_step hget hinv)

/-- Every token produced by `tokenize` is a `GoodTok`. -/
theorem tokenizeL_good (s : List Char) : ∀ t ∈ tokenizeL s, GoodTok t := by
  unfold tokenizeL
  rw [List.foldl_append]
  have hinit : LexInv s 0 ⟨[], none, 'o'⟩ := by
    refine ⟨by simp, by simp, ?_⟩
    intro p hp
    exact absurd hp (by simp)
  have hmid : LexInv s s.length (List.foldl (lexUpdate s) ⟨[], none, 'o'⟩ s.enum) := by
    rw [List.enum_eq_enumFrom]
    have := lexInv_run s s 0 ⟨[], none, 'o'⟩ (by simp) (by omega) hinit
    simpa using this
  simpa using lexInv_final hmid

theorem tokenizeL_join (ts : List (List Char)) (hgood : ∀ t ∈ ts, GoodTok t) :
    tokenizeL (joinL ts) = ts := by
  cases ts with
  | nil => rfl
  | cons t rest =>
    unfold tokenizeL
    have hrun := lex_run_join (t :: rest) (by simp) hgood [] [] 'o' (Or.inl rfl)
    simp only [List.nil_append, List.length_nil] at hrun
    rw [List.enum_eq_enumFrom, hrun]

/-- C9: `tokenize` is idempotent on its own output: every emitted token
re-tokenizes to exactly itself, and re-tokenizing the space-joined token
list of any sentence yields the same token list. -/
theorem tokenize_idempotent (s : String) :
    (∀ t ∈ tokenize s, tokenize t = [t]) ∧
    tokenize (joinTokens (tokenize s)) = tokenize s := by
  constructor
  · intro t ht
    unfold tokenize at ht
    obtain ⟨l, hl, rfl⟩ := List.mem_map.mp ht
    have hg : GoodTok l := tokenizeL_good s.data l hl
    unfold tokenize
    have hsingle : tokenizeL l = [l] := by
      have h1 := tokenizeL_join [l] (by
        intro x hx
        simp only [List.mem_singleton] at hx
        subst hx
        exact hg)
      simpa [joinL] using h1
    show (tokenizeL (String.mk l).data).map (fun l => (⟨l⟩ : String)) = [⟨l⟩]
    have hdata : (String.mk l).data = l := rfl
    rw [hdata, hsingle]
    rfl
  · unfold tokenize joinTokens
    have hmapdata :
        (List.map (fun l => (⟨l⟩ : String)) (tokenizeL s.data)).map String.data =
          tokenizeL s.data := by
      rw [List.map_map]
      have : (String.data ∘ fun l => (⟨l⟩ : String)) = id := by
        funext l
        rfl
      rw [this, List.map_id]
    show (tokenizeL (String.mk (joinL (((tokenizeL s.data).map
        (fun l => (⟨l⟩ : String))).map String.data))).data).map (fun l => (⟨l⟩ : String)) =
      (tokenizeL s.data).map (fun l => (⟨l⟩ : String))
    rw [hmapdata]
    have hdata2 : (String.mk (joinL (tokenizeL s.data))).data = joinL (tokenizeL s.data) := rfl
    rw [hdata2, tokenizeL_join (tokenizeL s.data) (tokenizeL_good s.data)]

/-- Witness for C9 on a concrete sentence. -/
theorem tokenize_idempotent_witness : tokenize "hey" = ["hey"] :=
  (tokenize_idempotent "hey there").1 "hey" (by decide)

/-! ### Conflict resolution (src/ovos_padatious/util.py, `resolve_conflicts`)

Training vectors are Python floats; they are modelled as rationals here
(only equality and `max` are used). -/

/-- Python `max` over a generator; the Python call sites always pass a
nonempty sequence, the `[]` case is an arbitrary default. -/
def pyMaxQ (l : List ℚ) : ℚ :=
  match l with
  | [] => 0
  | x :: xs => xs.foldl max x

/-- One step of building the `data` dict: append the output to the entry of
an already-seen input vector, else append a fresh entry. -/
def addPair (d : List (List ℚ × List (List ℚ))) (io : List ℚ × List ℚ) :
    List (List ℚ × List (List ℚ)) :=
  if io.1 ∈ d.map Prod.fst then
    d.map fun kv => if kv.1 = io.1 then (kv.1, kv.2 ++ [io.2]) else kv
  else d ++ [(io.1, [io.2])]

/-- `resolve_conflicts(inputs, outputs)`: group outputs by identical input
vector (dict insertion order), then per entry take the positionwise `max`
over `range(len(outs[0]))`. -/
def resolveConflicts (inputs outputs : List (List ℚ)) :
    List (List ℚ) × List (List ℚ) :=
  let data := (inputs.zip outputs).foldl addPair []
  (data.map Prod.fst,
   data.map fun kv =>
     (List.range (kv.2.headD []).length).map fun i =>
       pyMaxQ (kv.2.map fun col => col.getD i 0))

/-- All outputs paired with input vector `v` in the original zipped data,
in order. -/
def outputsFor (pairs : List (List ℚ × List ℚ)) (v : List ℚ) : List (List ℚ) :=
  pairs.filterMap fun io => if io.1 = v then some io.2 else none

theorem outputsFor_append_single (pairs : List (List ℚ × List ℚ))
    (io : List ℚ × List ℚ) (v : List ℚ) :
    outputsFor (pairs ++ [io]) v =
      outputsFor pairs v ++ (if io.1 = v then [io.2] else []) := by
  unfold outputsFor
  rw [List.filterMap_append]
  congr 1
  by_cases h : io.1 = v <;> simp [h]

theorem outputsFor_eq_nil {pairs : List (List ℚ × List ℚ)} {v : List ℚ}
    (h : v ∉ pairs.map Prod.fst) : outputsFor pairs v = [] := by
  unfold outputsFor
  rw [List.filterMap_eq_nil_iff]
  intro io hio
  have : io.1 ≠ v := fun e => h (e ▸ List.mem_map_of_mem Prod.fst hio)
  simp [this]

theorem outputsFor_ne_nil {pairs : List (List ℚ × List ℚ)} {v : List ℚ}
    (h : v ∈ pairs.map Prod.fst) : outputsFor pairs v ≠ [] := by
  obtain ⟨io, hio, rfl⟩ := List.mem_map.mp h
  have hm : io.2 ∈ outputsFor pairs io.1 :=
    List.mem_filterMap.mpr ⟨io, hio, by simp⟩
  intro h0
  rw [h0] at hm
  exact absurd hm (List.not_mem_nil _)

theorem mem_outputsFor_mem_snd {pairs : List (List ℚ × List ℚ)} {v x : List ℚ}
    (h : x ∈ outputsFor pairs v) : x ∈ pairs.map Prod.snd := by
  unfold outputsFor at h
  obtain ⟨io, hio, hx⟩ := List.mem_filterMap.mp h
  by_cases he : io.1 = v
  · rw [if_pos he] at hx
    injection hx with hx
    exact hx ▸ List.mem_map_of_mem Prod.snd hio
  · rw [if_neg he] at hx
    exact absurd hx (by simp)

theorem data_fold_inv (pairs : List (List ℚ × List ℚ)) :
    ∀ (d : List (List ℚ × List (List ℚ))) (seen : List (List ℚ × List ℚ)),
      (d.map Prod.fst).Nodup →
      (∀ v, v ∈ d.map Prod.fst ↔ v ∈ seen.map Prod.fst) →
      (∀ kv ∈ d, kv.2 = outputsFor seen kv.1) →
      ((pairs.foldl addPair d).map Prod.fst).Nodup ∧
        (∀ v, v ∈ (pairs.foldl addPair d).map Prod.fst ↔
          v ∈ (seen ++ pairs).map Prod.fst) ∧
        (∀ kv ∈ pairs.foldl addPair d, kv.2 = outputsFor (seen ++ pairs) kv.1) := by
  induction pairs with
  | nil =>
    intro d seen hnd hmem hout
    simp only [List.foldl_nil, List.append_nil]
    exact ⟨hnd, hmem, hout⟩
  | cons io rest ih =>
    intro d seen hnd hmem hout
    have hassoc : seen ++ io :: rest = (seen ++ [io]) ++ rest := by simp
    rw [hassoc]
    simp only [List.foldl_cons]
    refine ih (addPair d io) (seen ++ [io]) ?_ ?_ ?_
    · unfold addPair
      by_cases h : io.1 ∈ d.map Prod.fst
      · rw [if_pos h]
        have : (d.map fun kv => if kv.1 = io.1 then (kv.1, kv.2 ++ [io.2]) else kv).map
            Prod.fst = d.map Prod.fst := by
          rw [List.map_map]
          refine List.map_congr_left fun kv _ => ?_
          by_cases he : kv.1 = io.1 <;> simp [he]
        rw [this]
        exact hnd
      · rw [if_neg h]
        rw [List.map_append, List.nodup_append]
        refine ⟨hnd, by simp, ?_⟩
        intro a ha
        simp only [List.map_cons, List.map_nil, List.mem_singleton]
        rintro rfl
        exact h ha
    · intro v
      unfold addPair
      by_cases h : io.1 ∈ d.map Prod.fst
      · rw [if_pos h]
        have heq : (d.map fun kv => if kv.1 = io.1 then (kv.1, kv.2 ++ [io.2]) else kv).map
            Prod.fst = d.map Prod.fst := by
          rw [List.map_map]
          refine List.map_congr_left fun kv _ => ?_
          by_cases he : kv.1 = io.1 <;> simp [he]
        rw [heq]
        simp only [List.map_append, List.mem_append, List.map_cons, List.map_nil,
          List.mem_singleton]
        constructor
        · intro hv
          exact Or.inl ((hmem v).mp hv)
        · rintro (hv | rfl)
          · exact (hmem v).mpr hv
          · exact h
      · rw [if_neg h]
        simp only [List.map_append, List.mem_append, List.map_cons, List.map_nil,
          List.mem_singleton]
        rw [hmem v]
    · intro kv hkv
      unfold addPair at hkv
      by_cases h : io.1 ∈ d.map Prod.fst
      · rw [if_pos h] at hkv
        obtain ⟨kv0, hkv0, hkveq⟩ := List.mem_map.mp hkv
        rw [outputsFor_append_single]
        by_cases he : kv0.1 = io.1
        · rw [if_pos he] at hkveq
          subst hkveq
          simp only
          rw [← hout kv0 hkv0, he]
          simp
        · rw [if_neg he] at hkveq
          subst hkveq
          have : io.1 ≠ kv0.1 := fun e => he e.symm
          rw [if_neg this]
          rw [← hout kv0 hkv0]
          simp
      · rw [if_neg h] at hkv
        rcases List.mem_append.mp hkv with hkv | hkv
        · rw [outputsFor_append_single]
          have hne : io.1 ≠ kv.1 := fun he =>
            h (by rw [he]; exact List.mem_map_of_mem Prod.fst hkv)
          rw [if_neg hne, ← hout kv hkv]
          simp
        · simp only [List.mem_singleton] at hkv
          subst hkv
          simp only
          rw [outputsFor_append_single]
          have hni : io.1 ∉ seen.map Prod.fst := fun hs => h ((hmem io.1).mpr hs)
          rw [outputsFor_eq_nil hni]
          simp

theorem le_foldl_max (xs : List ℚ) : ∀ a : ℚ, a ≤ xs.foldl max a := by
  induction xs with
  | nil => exact fun a => le_refl a
  | cons x xs ih =>
    intro a
    exact le_trans (le_max_left a x) (ih (max a x))

theorem mem_le_foldl_max (xs : List ℚ) : ∀ (a x : ℚ), x ∈ xs → x ≤ xs.foldl max a := by
  induction xs with
  | nil => intro a x h; exact absurd h (List.not_mem_nil x)
  | cons y ys ih =>
    intro a x h
    rcases List.mem_cons.mp h with rfl | h
    · exact le_trans (le_max_right a x) (le_foldl_max ys (max a x))
    · exact ih (max a y) x h

theorem foldl_max_cases (xs : List ℚ) : ∀ a : ℚ, xs.foldl max a = a ∨ xs.foldl max a ∈ xs := by
  induction xs with
  | nil => exact fun a => Or.inl rfl
  | cons y ys ih =>
    intro a
    rcases ih (max a y) with h | h
    · rcases max_choice a y with hm | hm
      · exact Or.inl (by rw [List.foldl_cons, h, hm])
      · exact Or.inr (by rw [List.foldl_cons, h, hm]; simp)
    · exact Or.inr (by simp [h])

theorem le_pyMaxQ {l : List ℚ} {x : ℚ} (h : x ∈ l) : x ≤ pyMaxQ l := by
  cases l with
  | nil => exact absurd h (List.not_mem_nil x)
  | cons y ys =>
    unfold pyMaxQ
    rcases List.mem_cons.mp h with rfl | h
    · exact le_foldl_max ys x
    · exact mem_le_foldl_max ys y x h

theorem pyMaxQ_mem {l : List ℚ} (h : l ≠ []) : pyMaxQ l ∈ l := by
  cases l with
  | nil => exact absurd rfl h
  | cons y ys =>
    show ys.foldl max y ∈ y :: ys
    rcases foldl_max_cases ys y with h0 | h0
    · rw [h0]; simp
    · simp [h0]

/-- C6: on equal-length input/output lists with equal-length output rows,
`resolve_conflicts` keeps every distinct input vector exactly once and pairs
it with the positionwise maximum over all outputs originally paired with
that input (so a duplicate with target 1.0 dominates one with 0.0). -/
theorem resolve_conflicts_spec (inputs outputs : List (List ℚ)) (k : ℕ)
    (hlen : inputs.length = outputs.length)
    (hk : ∀ o ∈ outputs, o.length = k) :
    (resolveConflicts inputs outputs).1.Nodup ∧
    (∀ v, v ∈ (resolveConflicts inputs outputs).1 ↔ v ∈ inputs) ∧
    (resolveConflicts inputs outputs).1.length = (resolveConflicts inputs outputs).2.length ∧
    (∀ p ∈ (resolveConflicts inputs outputs).1.zip (resolveConflicts inputs outputs).2,
      p.2.length = k ∧
      ∀ i, i < k →
        (∀ o ∈ outputsFor (inputs.zip outputs) p.1, o.getD i 0 ≤ p.2.getD i 0) ∧
        (∃ o ∈ outputsFor (inputs.zip outputs) p.1, p.2.getD i 0 = o.getD i 0)) := by
  obtain ⟨hnd, hmem, hout⟩ :=
    data_fold_inv (inputs.zip outputs) [] [] (by simp) (by simp) (by simp)
  simp only [List.nil_append] at hmem hout
  have hfst : (inputs.zip outputs).map Prod.fst = inputs :=
    List.map_fst_zip inputs outputs (le_of_eq hlen)
  have hsnd : (inputs.zip outputs).map Prod.snd = outputs :=
    List.map_snd_zip inputs outputs (ge_of_eq hlen)
  refine ⟨hnd, ?_, by simp [resolveConflicts], ?_⟩
  · intro v
    have h := hmem v
    rw [hfst] at h
    exact h
  · intro p hp
    unfold resolveConflicts at hp
    rw [List.zip_map'] at hp
    obtain ⟨kv, hkv, rfl⟩ := List.mem_map.mp hp
    have hkv2 : kv.2 = outputsFor (inputs.zip outputs) kv.1 := hout kv hkv
    have hkey : kv.1 ∈ (inputs.zip outputs).map Prod.fst :=
      (hmem kv.1).mp (List.mem_map_of_mem Prod.fst hkv)
    have hne : kv.2 ≠ [] := by
      rw [hkv2]
      exact outputsFor_ne_nil hkey
    have hhead : kv.2.headD [] ∈ kv.2 := by
      cases h2 : kv.2 with
      | nil => exact absurd h2 hne
      | cons o os => simp
    have hhead2 : kv.2.headD [] ∈ outputsFor (inputs.zip outputs) kv.1 := by
      rw [← hkv2]
      exact hhead
    have hheadk : (kv.2.headD []).length = k := by
      refine hk _ ?_
      rw [← hsnd]
      exact mem_outputsFor_mem_snd hhead2
    simp only [hheadk]
    refine ⟨by simp, ?_⟩
    intro i hi
    have hgd : ((List.range k).map fun j =>
        pyMaxQ (kv.2.map fun col => col.getD j 0)).getD i 0 =
        pyMaxQ (kv.2.map fun col => col.getD i 0) := by
      rw [List.getD_eq_getElem?_getD, List.getElem?_map, List.getElem?_range hi]
      rfl
    simp only at hgd ⊢
    rw [hgd]
    constructor
    · intro o ho
      exact le_pyMaxQ (List.mem_map_of_mem _ (hkv2 ▸ ho))
    · have hmm : pyMaxQ (kv.2.map fun col => col.getD i 0) ∈
          kv.2.map fun col => col.getD i 0 :=
        pyMaxQ_mem (by simpa using hne)
      obtain ⟨o, ho, heq⟩ := List.mem_map.mp hmm
      exact ⟨o, hkv2 ▸ ho, heq.symm⟩

/-- Witness for C6: a duplicated input with targets 0 and 1 collapses to a
single entry. -/
theorem resolve_conflicts_spec_witness :
    [1] ∈ (resolveConflicts [[1], [1]] [[0], [1]]).1 :=
  ((resolve_conflicts_spec [[1], [1]] [[0], [1]] 1 (by decide) (by decide)).2.1 [1]).mpr
    (by decide)

/-! ### Match-time data model

`MatchData` (src/ovos_padatious/match_data.py) is generic over the payload
type: token lists during extraction, plain strings after detokenization.
Confidences are Python floats, modelled as `ℝ` (the arithmetic involves
`sqrt`).  Neural nets (`net.run(vectorize(...))[0]`) are opaque functions
from the matched sentence to `ℝ`. -/

/-- Python `str.startswith`, at the character-list level (the built-in
`String.startsWith` does not reduce in the kernel). -/
def pyStartsWith (t pre : String) : Bool :=
  pre.data.isPrefixOf t.data

/-- `MatchData(name, sent, matches, conf)`; `matches=None` is normalised to
the empty dict by `__init__`.  (`matches` is a Lean keyword, hence the
primed field name.) -/
structure MatchData (α : Type) where
  name : Option String
  sent : α
  matches' : List (String × α)
  conf : ℝ

/-- Python dict update `d[k] = v` on an insertion-ordered dict copy. -/
def dictInsert {α : Type} (k : String) (v : α) (m : List (String × α)) :
    List (String × α) :=
  if k ∈ m.map Prod.fst then m.map fun kv => if kv.1 = k then (k, v) else kv
  else m ++ [(k, v)]

/-- `SimpleIntent` (src/ovos_padatious/simple_intent.py): its behaviour at
match time is `max(0, net.run(vectorize(sent))[0])`; the composition
`net.run ∘ vectorize` is the opaque field `net`.  `Entity`
(src/ovos_padatious/entity.py) inherits this `match` unchanged. -/
structure SimpleIntentM where
  name : String
  net : List String → ℝ

/-- `SimpleIntent.match(sent)`. -/
noncomputable def SimpleIntentM.matchSent (si : SimpleIntentM)
    (sent : List String) : ℝ :=
  max 0 (si.net sent)

/-- `PosIntent` (src/ovos_padatious/pos_intent.py): one placeholder token
and its two `EntityEdge` scorers (`edges[0]`/`edges[1]`, whose `match` takes
the sentence and a position; `entity_edge.py` is not part of this source
tree, so the edges stay opaque score functions). -/
structure PosIntentM where
  token : String
  edgeL : List String → ℕ → ℝ
  edgeR : List String → ℕ → ℝ

/-- `is_valid(l_pos, r_pos)` inside `PosIntent.match`. -/
def isValidSpan (sent : List String) (lp rp : ℕ) : Bool :=
  if rp < lp then false
  else (List.range' lp (rp + 1 - lp)).all fun p => !pyStartsWith (sent.getD p "") "\x7b"

/-- `PosIntent.match(orig_data, entity)`: for every `(l_pos, r_pos)` with
both edge confidences `≥ 0.2` and a valid span, emit a `MatchData` with the
span replaced by the placeholder token, the extraction recorded, and
`conf = orig.conf + sqrt(pos_conf * ent_conf) - 0.5`. -/
noncomputable def PosIntentM.matchOn (pi : PosIntentM)
    (entity : Option SimpleIntentM) (orig : MatchData (List String)) :
    List (MatchData (List String)) :=
  let n := orig.sent.length
  (List.range n).flatMap fun lp =>
    if pi.edgeL orig.sent lp < 0.2 then []
    else (List.range n).filterMap fun rp =>
      if pi.edgeR orig.sent rp < 0.2 ∨ isValidSpan orig.sent lp rp = false then none
      else
        let extracted := (orig.sent.drop lp).take (rp + 1 - lp)
        let posConf := (pi.edgeL orig.sent lp - 0.5 + pi.edgeR orig.sent rp - 0.5) / 2 + 0.5
        let entConf : ℝ := match entity with
          | some e => e.matchSent extracted
          | none => 1
        some ⟨orig.name, orig.sent.take lp ++ [pi.token] ++ orig.sent.drop (rp + 1),
          dictInsert pi.token extracted orig.matches',
          orig.conf + (Real.sqrt (posConf * entConf) - 0.5)⟩

/-- `Intent` (src/ovos_padatious/intent.py): a `SimpleIntent` plus its
`PosIntent`s. -/
structure IntentM where
  name : String
  simple : SimpleIntentM
  posIntents : List PosIntentM

/-- Python `max(xs, key=f)` (first maximal element wins ties), `none` on the
empty list where Python raises `ValueError`. -/
noncomputable def pyMaxByR {α : Type} (f : α → ℝ) : List α → Option α
  | [] => none
  | x :: xs => some (xs.foldl (fun b a => if f b < f a then a else b) x)

/-- `Intent.match(sent, entities)`: seed with
`MatchData(self.name, sent, {}, 0.0)`, extend the candidate list through
every `PosIntent`, drop candidates with `conf < 0.0`, rescore each as
`sqrt((conf/len(matches) if matches else 0) + 0.5) * simple_intent.match)`,
and return the maximal candidate.  `entities.find(self.name, pi.token) if
entities else None` is abstracted into `entFind`. -/
noncomputable def IntentM.matchOn (it : IntentM)
    (entFind : String → Option SimpleIntentM) (sent : List String) :
    Option (MatchData (List String)) :=
  let possible := it.posIntents.foldl
    (fun acc pi => acc ++ acc.flatMap fun m => pi.matchOn (entFind pi.token) m)
    [⟨some it.name, sent, [], 0⟩]
  let kept := possible.filter fun m => decide (0 ≤ m.conf)
  let scored := kept.map fun m =>
    let c : ℝ := (if 0 < m.matches'.length then m.conf / (m.matches'.length : ℝ) else 0) + 0.5
    { m with conf := Real.sqrt (c * it.simple.matchSent m.sent) }
  pyMaxByR (fun m => m.conf) scored

/-! ### Intent.train (src/ovos_padatious/intent.py) -/

/-- `TrainData` (src/ovos_padatious/train_data.py): `sent_lists` maps an
intent name to its tokenized sentences. -/
structure TrainDataM where
  sentLists : List (String × List (List String))

/-- `TrainData.my_sents(name)` (`sent_lists.get(name, [])`). -/
def TrainDataM.mySents (td : TrainDataM) (name : String) : List (List String) :=
  match td.sentLists.find? (fun kv => kv.1 == name) with
  | some kv => kv.2
  | none => []

/-- The observable order of the sub-training calls made by `Intent.train`. -/
inductive TrainEvent
  | simple
  | pos (token : String)
deriving DecidableEq

/-- Whether an event is the training of a `PosIntent`. -/
def TrainEvent.isPos : TrainEvent → Bool
  | simple => false
  | pos _ => true

/-- `Intent.train(train_data)`: collect the distinct placeholder tokens of
`my_sents` (a Python `set`, modelled as `dedup` — iteration order of a set
is arbitrary), create one `PosIntent` per token, then call
`simple_intent.train` followed by `train` on each `PosIntent`.  Returns the
token list and the order of training calls. -/
def intentTrain (name : String) (td : TrainDataM) :
    List String × List TrainEvent :=
  let tokens := (((td.mySents name).flatMap id).filter fun t =>
    pyStartsWith t "\x7b").dedup
  (tokens, TrainEvent.simple :: tokens.map TrainEvent.pos)

/-- The ordering asserted by the original claim: the `simple` event comes
after every `pos` event. -/
def simpleLastProp (tr : List TrainEvent) : Prop :=
  ∀ i j : Fin tr.length, tr.get i = TrainEvent.simple →
    (tr.get j).isPos = true → (j : ℕ) < (i : ℕ)

/-! ### DomainIntentEngine.calc_intent (src/ovos_padatious/domain_engine.py) -/

/-- The state of a trained `DomainIntentEngine` that `calc_intent` reads:
the registered per-domain containers (`self.domains`, keys plus their
`calc_intent` behaviour) and the top-level `domain_engine.calc_intent`.
Training (`self.train()` on `_must_train`) only updates this state and is
modelled as already done. -/
structure DomainEngineM where
  domains : List String
  domainCalc : String → String → MatchData String
  engineCalc : String → MatchData String

/-- Python `domain or fallback` on an optional string: `None` and `""` are
falsy. -/
def pyOrName (domain : Option String) (fallback : Option String) :
    Option String :=
  match domain with
  | some s => if s = "" then fallback else some s
  | none => fallback

/-- `DomainIntentEngine.calc_intent(query, domain)`: resolve the domain
(falling back to `domain_engine.calc_intent(query).name`), delegate to the
domain container if present, else return
`MatchData(name=None, sent=query, matches=None, conf=0.0)`. -/
def DomainEngineM.calcIntent (e : DomainEngineM) (query : String)
    (domain : Option String) : MatchData String :=
  match pyOrName domain (e.engineCalc query).name with
  | some d => if d ∈ e.domains then e.domainCalc d query else ⟨none, query, [], 0⟩
  | none => ⟨none, query, [], 0⟩

/-! ### Final candidate selection (src/ovos_padatious/opm.py,
`_calc_padatious_intent`) -/

/-- Python `min(xs, key=f)` with a natural-number key (first minimal element
wins ties). -/
def pyMinByN {α : Type} (f : α → ℕ) : List α → Option α
  | [] => none
  | x :: xs => some (xs.foldl (fun b a => if f a < f b then a else b) x)

/-- `sum(map(len, x.matches.values()))`. -/
def totalLen (m : MatchData String) : ℕ :=
  (m.matches'.map fun kv => kv.2.length).sum

/-- The selection step of `_calc_padatious_intent` on the already-filtered
candidate list: `None` when empty, else the max-conf candidate, ties broken
by the minimal total length of extracted values; the winner's `sent` is
overwritten with the utterance. -/
noncomputable def calcPadatiousIntent (utt : String)
    (ms : List (MatchData String)) : Option (MatchData String) :=
  if ms.length = 0 then none
  else
    match pyMaxByR (fun m => m.conf) ms with
    | none => none
    | some best =>
      match pyMinByN totalLen (ms.filter fun m => decide (m.conf = best.conf)) with
      | none => none
      | some intent => some { intent with sent := utt }

/-! ### C1: the order of training calls in `Intent.train` -/

/-- C1 (counterexample): on a training set whose single sentence is the
placeholder `{x}`, `Intent.train` emits the `SimpleIntent` training call
BEFORE the `PosIntent` training call, so the claimed "SimpleIntent last"
ordering is false. -/
theorem intent_train_simple_first_cex :
    ¬ simpleLastProp (intentTrain "A" ⟨[("A", [["\x7bx\x7d"]])]⟩).2 := by
  have h : (intentTrain "A" ⟨[("A", [["\x7bx\x7d"]])]⟩).2 =
      [TrainEvent.simple, TrainEvent.pos "\x7bx\x7d"] := by rfl
  rw [h]
  unfold simpleLastProp
  decide

/-- C1 (amended): `Intent.train` instantiates one `PosIntent` per distinct
placeholder token occurring in the intent's training sentences, and trains
the `SimpleIntent` FIRST, then each `PosIntent`. -/
theorem intent_train_spec (name : String) (td : TrainDataM) :
    (intentTrain name td).1.Nodup ∧
    (∀ tok, tok ∈ (intentTrain name td).1 ↔
      ((∃ sent ∈ td.mySents name, tok ∈ sent) ∧ pyStartsWith tok "\x7b" = true)) ∧
    (intentTrain name td).2 =
      TrainEvent.simple :: (intentTrain name td).1.map TrainEvent.pos := by
  refine ⟨List.nodup_dedup _, ?_, rfl⟩
  intro tok
  show tok ∈ (((td.mySents name).flatMap id).filter fun t =>
      pyStartsWith t "\x7b").dedup ↔ _
  simp only [List.mem_dedup, List.mem_filter, List.mem_flatMap, id]

/-- Witness for C1 (amended) on a concrete training set. -/
theorem intent_train_spec_witness :
    (intentTrain "A" ⟨[("A", [["\x7bx\x7d"]])]⟩).2 =
      TrainEvent.simple :: (intentTrain "A" ⟨[("A", [["\x7bx\x7d"]])]⟩).1.map TrainEvent.pos :=
  (intent_train_spec "A" ⟨[("A", [["\x7bx\x7d"]])]⟩).2.2

/-! ### C4: `DomainIntentEngine.calc_intent` on unknown domains -/

/-- C4 (counterexample): the empty string names a domain with no registered
container, but because Python's `domain or ...` treats `""` as falsy,
`calc_intent(q, "")` falls back to the engine-selected domain and returns
its match instead of the null `MatchData` the claim requires. -/
theorem domain_calc_intent_empty_cex :
    ("" ∉ (⟨["d"], fun _ _ => ⟨some "i", "q", [], 0⟩,
        fun _ => ⟨some "d", "q", [], 0⟩⟩ : DomainEngineM).domains) ∧
    (DomainEngineM.calcIntent
        ⟨["d"], (fun _ _ => ⟨some "i", "q", [], 0⟩), fun _ => ⟨some "d", "q", [], 0⟩⟩
        "q" (some "")).name = some "i" := by
  constructor
  · intro h
    simp at h
  · rfl

/-- C4 (amended): `calc_intent(query, domain)` returns the null
`MatchData(None, query, {}, 0.0)` whenever the effective domain has no
registered container: for a non-empty explicit domain argument this is the
argument itself, while for an omitted, `None`, or empty-string argument the
engine-selected name is used (and a `None` selection also yields the null
match). -/
theorem domain_calc_intent_unknown (e : DomainEngineM) (q : String)
    (dom : Option String)
    (h1 : ∀ s, dom = some s → s ≠ "" → s ∉ e.domains)
    (h2 : (dom = none ∨ dom = some "") →
      ∀ s, (e.engineCalc q).name = some s → s ∉ e.domains) :
    e.calcIntent q dom = ⟨none, q, [], 0⟩ := by
  unfold DomainEngineM.calcIntent pyOrName
  rcases dom with _ | s
  · rcases hname : (e.engineCalc q).name with _ | d
    · rfl
    · have := h2 (Or.inl rfl) d hname
      show (if d ∈ e.domains then e.domainCalc d q
        else ⟨none, q, [], 0⟩) = (⟨none, q, [], 0⟩ : MatchData String)
      rw [if_neg this]
  · by_cases hs : s = ""
    · subst hs
      simp only [if_pos rfl]
      rcases hname : (e.engineCalc q).name with _ | d
      · rfl
      · have := h2 (Or.inr rfl) d hname
        show (if d ∈ e.domains then e.domainCalc d q
          else ⟨none, q, [], 0⟩) = (⟨none, q, [], 0⟩ : MatchData String)
        rw [if_neg this]
    · simp only [if_neg hs]
      have := h1 s rfl hs
      rw [if_neg this]

/-- Witness for C4 (amended): an explicit unknown domain yields the null
match. -/
theorem domain_calc_intent_unknown_witness :
    DomainEngineM.calcIntent
        ⟨[], (fun _ _ => ⟨none, "", [], 0⟩), fun _ => ⟨none, "", [], 0⟩⟩
        "q" (some "x") = ⟨none, "q", [], 0⟩ :=
  domain_calc_intent_unknown
    ⟨[], (fun _ _ => ⟨none, "", [], 0⟩), fun _ => ⟨none, "", [], 0⟩⟩ "q" (some "x")
    (fun s _ _ => List.not_mem_nil s)
    (by intro h; rcases h with h | h <;> simp at h)

/-! ### C5: max-conf selection with shortest-extraction tie-break -/

theorem foldl_maxBy {α : Type} (f : α → ℝ) (xs : List α) :
    ∀ b : α,
      (xs.foldl (fun b a => if f b < f a then a else b) b = b ∨
        xs.foldl (fun b a => if f b < f a then a else b) b ∈ xs) ∧
      f b ≤ f (xs.foldl (fun b a => if f b < f a then a else b) b) ∧
      ∀ a ∈ xs, f a ≤ f (xs.foldl (fun b a => if f b < f a then a else b) b) := by
  induction xs with
  | nil =>
    intro b
    exact ⟨Or.inl rfl, le_refl _, fun a ha => absurd ha (List.not_mem_nil a)⟩
  | cons x xs ih =>
    intro b
    simp only [List.foldl_cons]
    obtain ⟨hmem, hle, hall⟩ := ih (if f b < f x then x else b)
    have hb' : f b ≤ f (if f b < f x then x else b) := by
      by_cases h : f b < f x
      · rw [if_pos h]; exact le_of_lt h
      · rw [if_neg h]
    have hx' : f x ≤ f (if f b < f x then x else b) := by
      by_cases h : f b < f x
      · rw [if_pos h]
      · rw [if_neg h]; exact le_of_not_lt h
    refine ⟨?_, le_trans hb' hle, ?_⟩
    · rcases hmem with h | h
      · rw [h]
        by_cases hc : f b < f x
        · rw [if_pos hc]; exact Or.inr (by simp)
        · rw [if_neg hc]; exact Or.inl rfl
      · exact Or.inr (List.mem_cons_of_mem x h)
    · intro a ha
      rcases List.mem_cons.mp ha with rfl | ha
      · exact le_trans hx' hle
      · exact hall a ha

theorem foldl_minByN {α : Type} (f : α → ℕ) (xs : List α) :
    ∀ b : α,
      (xs.foldl (fun b a => if f a < f b then a else b) b = b ∨
        xs.foldl (fun b a => if f a < f b then a else b) b ∈ xs) ∧
      f (xs.foldl (fun b a => if f a < f b then a else b) b) ≤ f b ∧
      ∀ a ∈ xs, f (xs.foldl (fun b a => if f a < f b then a else b) b) ≤ f a := by
  induction xs with
  | nil =>
    intro b
    exact ⟨Or.inl rfl, le_refl _, fun a ha => absurd ha (List.not_mem_nil a)⟩
  | cons x xs ih =>
    intro b
    simp only [List.foldl_cons]
    obtain ⟨hmem, hle, hall⟩ := ih (if f x < f b then x else b)
    have hb' : f (if f x < f b then x else b) ≤ f b := by
      by_cases h : f x < f b
      · rw [if_pos h]; exact le_of_lt h
      · rw [if_neg h]
    have hx' : f (if f x < f b then x else b) ≤ f x := by
      by_cases h : f x < f b
      · rw [if_pos h]
      · rw [if_neg h]; exact le_of_not_lt h
    refine ⟨?_, le_trans hle hb', ?_⟩
    · rcases hmem with h | h
      · rw [h]
        by_cases hc : f x < f b
        · rw [if_pos hc]; exact Or.inr (by simp)
        · rw [if_neg hc]; exact Or.inl rfl
      · exact Or.inr (List.mem_cons_of_mem x h)
    · intro a ha
      rcases List.mem_cons.mp ha with rfl | ha
      · exact le_trans hle hx'
      · exact hall a ha

/-- C5: on a non-empty candidate list, `_calc_padatious_intent` returns a
candidate of maximal `conf`; among candidates tied at that `conf` it has
the smallest total character length of extracted slot values.  (The
winner's `sent` is overwritten with the raw utterance.) -/
theorem calc_padatious_selection (utt : String) (ms : List (MatchData String))
    (hne : ms ≠ []) :
    ∃ chosen ∈ ms,
      calcPadatiousIntent utt ms = some { chosen with sent := utt } ∧
      (∀ m ∈ ms, m.conf ≤ chosen.conf) ∧
      (∀ m ∈ ms, m.conf = chosen.conf → totalLen chosen ≤ totalLen m) := by
  obtain ⟨x, xs, rfl⟩ := List.exists_cons_of_ne_nil hne
  have hmax := foldl_maxBy (fun m : MatchData String => m.conf) xs x
  set best := xs.foldl
      (fun b a : MatchData String => if b.conf < a.conf then a else b) x with hbest
  obtain ⟨hbmem0, hbx, hball⟩ := hmax
  have hbmem : best ∈ x :: xs := by
    rcases hbmem0 with h | h
    · rw [h]; simp
    · exact List.mem_cons_of_mem x h
  have hballc : ∀ m ∈ x :: xs, m.conf ≤ best.conf := by
    intro m hm
    rcases List.mem_cons.mp hm with rfl | hm
    · exact hbx
    · exact hball m hm
  have hfilter : best ∈ (x :: xs).filter fun m => decide (m.conf = best.conf) := by
    rw [List.mem_filter]
    exact ⟨hbmem, by simp⟩
  obtain ⟨y, ys, hys⟩ :=
    List.exists_cons_of_ne_nil (List.ne_nil_of_mem hfilter)
  have hmin := foldl_minByN totalLen ys y
  set chosen := ys.foldl (fun b a => if totalLen a < totalLen b then a else b) y
    with hchosen
  obtain ⟨hcm0, hcy, hcall⟩ := hmin
  have hcmem : chosen ∈ y :: ys := by
    rcases hcm0 with h | h
    · rw [h]; simp
    · exact List.mem_cons_of_mem y h
  have hcfil : chosen ∈ (x :: xs).filter fun m => decide (m.conf = best.conf) := by
    rw [hys]
    exact hcmem
  have hcms : chosen ∈ x :: xs := (List.mem_filter.mp hcfil).1
  have hcconf : chosen.conf = best.conf := by
    have := (List.mem_filter.mp hcfil).2
    simpa using this
  have hcminall : ∀ m ∈ x :: xs, m.conf = chosen.conf → totalLen chosen ≤ totalLen m := by
    intro m hm hmc
    have hmf : m ∈ (x :: xs).filter fun m => decide (m.conf = best.conf) := by
      rw [List.mem_filter]
      exact ⟨hm, by simp [hmc, hcconf]⟩
    rw [hys] at hmf
    rcases List.mem_cons.mp hmf with rfl | hmf
    · exact hcy
    · exact hcall m hmf
  refine ⟨chosen, hcms, ?_, ?_, hcminall⟩
  · have h2 : pyMinByN totalLen ((x :: xs).filter fun m =>
        decide (m.conf = best.conf)) = some chosen := by
      rw [hys]
      rfl
    have hcomp : calcPadatiousIntent utt (x :: xs) =
        match pyMinByN totalLen ((x :: xs).filter fun m =>
          decide (m.conf = best.conf)) with
        | none => none
        | some intent => some { intent with sent := utt } := rfl
    rw [hcomp, h2]
  · intro m hm
    rw [hcconf]
    exact hballc m hm

/-- Witness for C5 on a concrete singleton candidate list. -/
theorem calc_padatious_selection_witness :
    ∃ chosen ∈ ([⟨some "a", "s", [], 0⟩] : List (MatchData String)),
      calcPadatiousIntent "u" [⟨some "a", "s", [], 0⟩] = some { chosen with sent := "u" } ∧
      (∀ m ∈ ([⟨some "a", "s", [], 0⟩] : List (MatchData String)), m.conf ≤ chosen.conf) ∧
      (∀ m ∈ ([⟨some "a", "s", [], 0⟩] : List (MatchData String)),
        m.conf = chosen.conf → totalLen chosen ≤ totalLen m) :=
  calc_padatious_selection "u" [⟨some "a", "s", [], 0⟩] (by simp)

/-! ### C3: the candidates produced by `PosIntent.match` -/

/-- The claim's per-pair validity condition (left/right edge confidence at
least 0.2, `lp ≤ rp`, no placeholder token inside the span). -/
noncomputable def specOK (pi : PosIntentM) (orig : MatchData (List String))
    (lp rp : ℕ) : Bool :=
  decide ((0.2 : ℝ) ≤ pi.edgeL orig.sent lp) &&
  decide ((0.2 : ℝ) ≤ pi.edgeR orig.sent rp) &&
  decide (lp ≤ rp) &&
  ((List.range' lp (rp + 1 - lp)).all fun q =>
    !pyStartsWith (orig.sent.getD q "") "\x7b")

/-- All valid position pairs, in the (lexicographic) order the nested loops
of `PosIntent.match` visit them. -/
noncomputable def specValidPairs (pi : PosIntentM)
    (orig : MatchData (List String)) : List (ℕ × ℕ) :=
  (List.range orig.sent.length).flatMap fun lp =>
    ((List.range orig.sent.length).filter fun rp => specOK pi orig lp rp).map
      fun rp => (lp, rp)

/-- The candidate the claim describes for a valid pair `(lp, rp)`: the span
is replaced by the placeholder token, the extraction is recorded under the
token, and `conf = orig.conf + sqrt(pos_conf * ent_conf) - 0.5` with
`pos_conf = ((l_conf-0.5)+(r_conf-0.5))/2 + 0.5` and `ent_conf =
entity.match(extracted)` if an entity is given, else 1. -/
noncomputable def specCand (pi : PosIntentM) (entity : Option SimpleIntentM)
    (orig : MatchData (List String)) (p : ℕ × ℕ) : MatchData (List String) :=
  let extracted := (orig.sent.drop p.1).take (p.2 + 1 - p.1)
  let posConf := ((pi.edgeL orig.sent p.1 - 0.5) + (pi.edgeR orig.sent p.2 - 0.5)) / 2 + 0.5
  let entConf : ℝ := match entity with
    | some e => e.matchSent extracted
    | none => 1
  ⟨orig.name, orig.sent.take p.1 ++ [pi.token] ++ orig.sent.drop (p.2 + 1),
    dictInsert pi.token extracted orig.matches',
    orig.conf + (Real.sqrt (posConf * entConf) - 0.5)⟩

theorem isValidSpan_eq (sent : List String) (lp rp : ℕ) :
    isValidSpan sent lp rp =
      (decide (lp ≤ rp) &&
        ((List.range' lp (rp + 1 - lp)).all fun q =>
          !pyStartsWith (sent.getD q "") "\x7b")) := by
  unfold isValidSpan
  by_cases h : rp < lp
  · rw [if_pos h]
    have : ¬ lp ≤ rp := by omega
    simp [this]
  · rw [if_neg h]
    have : lp ≤ rp := by omega
    simp [this]

theorem posIntent_inner_eq (pi : PosIntentM) (entity : Option SimpleIntentM)
    (orig : MatchData (List String)) (lp : ℕ) :
    ∀ L2 : List ℕ,
      (if pi.edgeL orig.sent lp < 0.2 then ([] : List (MatchData (List String)))
       else L2.filterMap fun rp =>
        if pi.edgeR orig.sent rp < 0.2 ∨ isValidSpan orig.sent lp rp = false then none
        else
          some ⟨orig.name, orig.sent.take lp ++ [pi.token] ++ orig.sent.drop (rp + 1),
            dictInsert pi.token ((orig.sent.drop lp).take (rp + 1 - lp)) orig.matches',
            orig.conf + (Real.sqrt
              (((pi.edgeL orig.sent lp - 0.5 + pi.edgeR orig.sent rp - 0.5) / 2 + 0.5) *
                (match entity with
                  | some e => e.matchSent ((orig.sent.drop lp).take (rp + 1 - lp))
                  | none => 1)) - 0.5)⟩) =
      ((L2.filter fun rp => specOK pi orig lp rp).map fun rp =>
        specCand pi entity orig (lp, rp)) := by
  intro L2
  by_cases hl : pi.edgeL orig.sent lp < 0.2
  · rw [if_pos hl]
    have hfe : (L2.filter fun rp => specOK pi orig lp rp) = [] := by
      rw [List.filter_eq_nil_iff]
      intro rp _
      unfold specOK
      have : ¬ (0.2 : ℝ) ≤ pi.edgeL orig.sent lp := not_le_of_lt hl
      simp [this]
    rw [hfe]
    rfl
  · rw [if_neg hl]
    induction L2 with
    | nil => rfl
    | cons rp L2 ih =>
      rw [List.filterMap_cons, List.filter_cons]
      by_cases hc : pi.edgeR orig.sent rp < 0.2 ∨ isValidSpan orig.sent lp rp = false
      · rw [if_pos hc]
        have hok : specOK pi orig lp rp = false := by
          unfold specOK
          rcases hc with hc | hc
          · have : ¬ (0.2 : ℝ) ≤ pi.edgeR orig.sent rp := not_le_of_lt hc
            simp [this]
          · rw [isValidSpan_eq] at hc
            simp only [Bool.and_eq_false_iff] at hc ⊢
            rcases hc with hc | hc
            · exact Or.inl (Or.inr hc)
            · exact Or.inr hc
        rw [hok]
        simpa using ih
      · rw [if_neg hc]
        push_neg at hc
        obtain ⟨hr, hv⟩ := hc
        have hok : specOK pi orig lp rp = true := by
          unfold specOK
          have h1 : (0.2 : ℝ) ≤ pi.edgeL orig.sent lp := le_of_not_lt hl
          have h3 : isValidSpan orig.sent lp rp = true := by
            cases h : isValidSpan orig.sent lp rp
            · exact absurd h hv
            · rfl
          rw [isValidSpan_eq] at h3
          simp only [Bool.and_eq_true, decide_eq_true_eq] at h3 ⊢
          exact ⟨⟨⟨h1, hr⟩, h3.1⟩, h3.2⟩
        rw [hok]
        simp only [if_true, List.map_cons]
        have harg : (pi.edgeL orig.sent lp - 0.5 + pi.edgeR orig.sent rp - 0.5) / 2 + 0.5
            = ((pi.edgeL orig.sent lp - 0.5) + (pi.edgeR orig.sent rp - 0.5)) / 2 + 0.5 := by
          ring
        rw [harg]
        refine congrArg₂ List.cons ?_ (by simpa using ih)
        rfl

theorem flatmap_sublist {α β : Type} (l : List α) (f g : α → List β)
    (h : ∀ a ∈ l, List.Sublist (f a) (g a)) :
    List.Sublist (l.flatMap f) (l.flatMap g) := by
  induction l with
  | nil => simp
  | cons x xs ih =>
    simp only [List.flatMap_cons]
    exact List.Sublist.append (h x (by simp))
      (ih fun a ha => h a (List.mem_cons_of_mem x ha))

theorem posMatch_eq (pi : PosIntentM) (entity : Option SimpleIntentM)
    (orig : MatchData (List String)) :
    pi.matchOn entity orig =
      (specValidPairs pi orig).map (specCand pi entity orig) := by
  unfold PosIntentM.matchOn specValidPairs
  rw [List.map_flatMap]
  refine List.flatMap_congr fun lp _ => ?_
  rw [List.map_map]
  exact posIntent_inner_eq pi entity orig lp (List.range orig.sent.length)

theorem specValidPairs_nodup (pi : PosIntentM) (orig : MatchData (List String)) :
    (specValidPairs pi orig).Nodup := by
  have hsub : List.Sublist (specValidPairs pi orig)
      ((List.range orig.sent.length).flatMap fun lp =>
        (List.range orig.sent.length).map fun rp => (lp, rp)) := by
    unfold specValidPairs
    refine flatmap_sublist _ _ _ fun lp _ => ?_
    exact List.Sublist.map _ (List.filter_sublist _)
  have hprod : ((List.range orig.sent.length).flatMap fun lp =>
      (List.range orig.sent.length).map fun rp => (lp, rp)) =
      (List.range orig.sent.length) ×ˢ (List.range orig.sent.length) := rfl
  rw [hprod] at hsub
  exact List.Nodup.sublist hsub
    (List.Nodup.product (List.nodup_range _) (List.nodup_range _))

theorem specValidPairs_mem (pi : PosIntentM) (orig : MatchData (List String))
    (lp rp : ℕ) :
    (lp, rp) ∈ specValidPairs pi orig ↔
      (lp < orig.sent.length ∧ rp < orig.sent.length ∧ lp ≤ rp ∧
        (0.2 : ℝ) ≤ pi.edgeL orig.sent lp ∧ (0.2 : ℝ) ≤ pi.edgeR orig.sent rp ∧
        ∀ q, lp ≤ q → q ≤ rp →
          pyStartsWith (orig.sent.getD q "") "\x7b" = false) := by
  unfold specValidPairs specOK
  simp only [List.mem_flatMap, List.mem_map, List.mem_filter, List.mem_range,
    Bool.and_eq_true, decide_eq_true_eq, List.all_eq_true, List.mem_range'_1,
    Prod.mk.injEq, Bool.not_eq_true', and_imp]
  constructor
  · rintro ⟨lp', hlp', rp', ⟨hrp', ⟨⟨h1, h2⟩, h3⟩, h4⟩, he1, he2⟩
    subst he1
    subst he2
    exact ⟨hlp', hrp', h3, h1, h2, fun q hq1 hq2 => h4 q hq1 (by omega)⟩
  · rintro ⟨h1, h2, h3, h4, h5, h6⟩
    exact ⟨lp, h1, rp, ⟨h2, ⟨⟨h4, h5⟩, h3⟩, fun q hq1 hq2 => h6 q hq1 (by omega)⟩,
      rfl, rfl⟩

/-- C3: `PosIntent.match` returns exactly one candidate per position pair
`(lp, rp)` with `lp ≤ rp`, both edge confidences `≥ 0.2` and no placeholder
token in the span, namely (in loop order) the candidate described by the
claim: span replaced by the placeholder token, extraction recorded, and
`conf = orig.conf + sqrt(pos_conf * ent_conf) - 0.5`. -/
theorem pos_intent_match_spec (pi : PosIntentM) (entity : Option SimpleIntentM)
    (orig : MatchData (List String)) :
    pi.matchOn entity orig =
      (specValidPairs pi orig).map (specCand pi entity orig) ∧
    (specValidPairs pi orig).Nodup ∧
    (∀ lp rp : ℕ, (lp, rp) ∈ specValidPairs pi orig ↔
      (lp < orig.sent.length ∧ rp < orig.sent.length ∧ lp ≤ rp ∧
        (0.2 : ℝ) ≤ pi.edgeL orig.sent lp ∧ (0.2 : ℝ) ≤ pi.edgeR orig.sent rp ∧
        ∀ q, lp ≤ q → q ≤ rp →
          pyStartsWith (orig.sent.getD q "") "\x7b" = false)) :=
  ⟨posMatch_eq pi entity orig, specValidPairs_nodup pi orig,
    specValidPairs_mem pi orig⟩

/-! ### C2 and C10: `Intent.match` totality and confidence bounds -/

theorem dictInsert_keys_fresh {α : Type} {k : String} {m : List (String × α)}
    (v : α) (h : k ∉ m.map Prod.fst) :
    (dictInsert k v m).map Prod.fst = m.map Prod.fst ++ [k] := by
  unfold dictInsert
  rw [if_neg h]
  simp

theorem dictInsert_length_fresh {α : Type} {k : String} {m : List (String × α)}
    (v : α) (h : k ∉ m.map Prod.fst) :
    (dictInsert k v m).length = m.length + 1 := by
  unfold dictInsert
  rw [if_neg h]
  simp

theorem posMatch_member {pi : PosIntentM} {entity : Option SimpleIntentM}
    {orig m' : MatchData (List String)} (hm : m' ∈ pi.matchOn entity orig) :
    ∃ p ∈ specValidPairs pi orig, m' = specCand pi entity orig p := by
  rw [posMatch_eq] at hm
  obtain ⟨p, hp, he⟩ := List.mem_map.mp hm
  exact ⟨p, hp, he.symm⟩

theorem extra_sqrt_le {l r ec : ℝ} (hl2 : (0.2 : ℝ) ≤ l) (hl1 : l ≤ 1)
    (hr2 : (0.2 : ℝ) ≤ r) (hr1 : r ≤ 1) (he0 : 0 ≤ ec) (he1 : ec ≤ 1) :
    Real.sqrt ((((l - 0.5) + (r - 0.5)) / 2 + 0.5) * ec) ≤ 1 := by
  have hpc1 : ((l - 0.5) + (r - 0.5)) / 2 + 0.5 ≤ 1 := by linarith
  have hx1 : (((l - 0.5) + (r - 0.5)) / 2 + 0.5) * ec ≤ 1 := by
    calc (((l - 0.5) + (r - 0.5)) / 2 + 0.5) * ec ≤ 1 * 1 :=
          mul_le_mul hpc1 he1 he0 (by norm_num)
      _ = 1 := one_mul 1
  exact Real.sqrt_le_one.mpr hx1

theorem specCand_conf_le {pi : PosIntentM} {entity : Option SimpleIntentM}
    {orig : MatchData (List String)} {p : ℕ × ℕ}
    (hl2 : (0.2 : ℝ) ≤ pi.edgeL orig.sent p.1)
    (hr2 : (0.2 : ℝ) ≤ pi.edgeR orig.sent p.2)
    (hl1 : pi.edgeL orig.sent p.1 ≤ 1) (hr1 : pi.edgeR orig.sent p.2 ≤ 1)
    (hent : ∀ e, entity = some e →
      e.net ((orig.sent.drop p.1).take (p.2 + 1 - p.1)) ≤ 1) :
    (specCand pi entity orig p).conf ≤ orig.conf + 1 / 2 := by
  rcases entity with _ | e
  · have hconf : (specCand pi none orig p).conf =
        orig.conf + (Real.sqrt
          ((((pi.edgeL orig.sent p.1 - 0.5) + (pi.edgeR orig.sent p.2 - 0.5)) / 2 + 0.5) *
            1) - 0.5) := rfl
    rw [hconf]
    have := extra_sqrt_le hl2 hl1 hr2 hr1 (by norm_num : (0 : ℝ) ≤ 1) (le_refl 1)
    linarith
  · have hconf : (specCand pi (some e) orig p).conf =
        orig.conf + (Real.sqrt
          ((((pi.edgeL orig.sent p.1 - 0.5) + (pi.edgeR orig.sent p.2 - 0.5)) / 2 + 0.5) *
            e.matchSent ((orig.sent.drop p.1).take (p.2 + 1 - p.1))) - 0.5) := rfl
    rw [hconf]
    have he0 : (0 : ℝ) ≤ e.matchSent ((orig.sent.drop p.1).take (p.2 + 1 - p.1)) :=
      le_max_left 0 _
    have he1 : e.matchSent ((orig.sent.drop p.1).take (p.2 + 1 - p.1)) ≤ 1 :=
      max_le (by norm_num) (hent e rfl)
    have := extra_sqrt_le hl2 hl1 hr2 hr1 he0 he1
    linarith

theorem specCand_conf_ge {pi : PosIntentM} {entity : Option SimpleIntentM}
    {orig : MatchData (List String)} {p : ℕ × ℕ} :
    orig.conf - 1 / 2 ≤ (specCand pi entity orig p).conf := by
  rcases entity with _ | e
  · have hconf : (specCand pi none orig p).conf =
        orig.conf + (Real.sqrt
          ((((pi.edgeL orig.sent p.1 - 0.5) + (pi.edgeR orig.sent p.2 - 0.5)) / 2 + 0.5) *
            1) - 0.5) := rfl
    rw [hconf]
    have := Real.sqrt_nonneg
      ((((pi.edgeL orig.sent p.1 - 0.5) + (pi.edgeR orig.sent p.2 - 0.5)) / 2 + 0.5) * 1)
    linarith
  · have hconf : (specCand pi (some e) orig p).conf =
        orig.conf + (Real.sqrt
          ((((pi.edgeL orig.sent p.1 - 0.5) + (pi.edgeR orig.sent p.2 - 0.5)) / 2 + 0.5) *
            e.matchSent ((orig.sent.drop p.1).take (p.2 + 1 - p.1))) - 0.5) := rfl
    rw [hconf]
    have := Real.sqrt_nonneg
      ((((pi.edgeL orig.sent p.1 - 0.5) + (pi.edgeR orig.sent p.2 - 0.5)) / 2 + 0.5) *
        e.matchSent ((orig.sent.drop p.1).take (p.2 + 1 - p.1)))
    linarith

/-- The fold inside `Intent.match` only appends candidates. -/
theorem intent_fold_extends (entFind : String → Option SimpleIntentM) :
    ∀ (pis : List PosIntentM) (acc : List (MatchData (List String))),
      ∃ ext, pis.foldl
        (fun acc pi => acc ++ acc.flatMap fun m => pi.matchOn (entFind pi.token) m)
        acc = acc ++ ext := by
  intro pis
  induction pis with
  | nil => exact fun acc => ⟨[], by simp⟩
  | cons pi pis ih =>
    intro acc
    simp only [List.foldl_cons]
    obtain ⟨e, he⟩ := ih (acc ++ acc.flatMap fun m => pi.matchOn (entFind pi.token) m)
    exact ⟨(acc.flatMap fun m => pi.matchOn (entFind pi.token) m) ++ e, by
      rw [he, List.append_assoc]⟩

/-- Every candidate in the fold keeps the seed's `name`. -/
theorem intent_fold_names (entFind : String → Option SimpleIntentM) (nm : Option String) :
    ∀ (pis : List PosIntentM) (acc : List (MatchData (List String))),
      (∀ m ∈ acc, m.name = nm) →
      ∀ m' ∈ pis.foldl
        (fun acc pi => acc ++ acc.flatMap fun m => pi.matchOn (entFind pi.token) m)
        acc, m'.name = nm := by
  intro pis
  induction pis with
  | nil => exact fun acc h => h
  | cons pi pis ih =>
    intro acc hacc
    simp only [List.foldl_cons]
    refine ih _ ?_
    intro m hm
    rcases List.mem_append.mp hm with hm | hm
    · exact hacc m hm
    · obtain ⟨m0, hm0, hmm⟩ := List.mem_flatMap.mp hm
      obtain ⟨p, _, rfl⟩ := posMatch_member hmm
      exact hacc m0 hm0

theorem pyMaxByR_cases {α : Type} (f : α → ℝ) (l : List α) (h : l ≠ []) :
    ∃ b, pyMaxByR f l = some b ∧ b ∈ l ∧ ∀ a ∈ l, f a ≤ f b := by
  cases l with
  | nil => exact absurd rfl h
  | cons x xs =>
    obtain ⟨hmem, hx, hall⟩ := foldl_maxBy f xs x
    refine ⟨xs.foldl (fun b a => if f b < f a then a else b) x, rfl, ?_, ?_⟩
    · rcases hmem with h0 | h0
      · rw [h0]; simp
      · exact List.mem_cons_of_mem x h0
    · intro a ha
      rcases List.mem_cons.mp ha with rfl | ha
      · exact hx
      · exact hall a ha

/-- C10: `Intent.match` always returns a `MatchData` carrying the intent's
own name: the seed candidate `MatchData(name, sent, {}, 0.0)` survives the
`conf >= 0.0` filter, so the final `max` runs over a non-empty list. -/
theorem intent_match_total (it : IntentM)
    (entFind : String → Option SimpleIntentM) (sent : List String) :
    ∃ m, it.matchOn entFind sent = some m ∧ m.name = some it.name := by
  unfold IntentM.matchOn
  obtain ⟨ext, hext⟩ := intent_fold_extends entFind it.posIntents
    [⟨some it.name, sent, [], 0⟩]
  have hseed : (⟨some it.name, sent, [], 0⟩ : MatchData (List String)) ∈
      it.posIntents.foldl
        (fun acc pi => acc ++ acc.flatMap fun m => pi.matchOn (entFind pi.token) m)
        [⟨some it.name, sent, [], 0⟩] := by
    rw [hext]
    simp
  have hkeep : (⟨some it.name, sent, [], 0⟩ : MatchData (List String)) ∈
      (it.posIntents.foldl
        (fun acc pi => acc ++ acc.flatMap fun m => pi.matchOn (entFind pi.token) m)
        [⟨some it.name, sent, [], 0⟩]).filter fun m => decide (0 ≤ m.conf) := by
    rw [List.mem_filter]
    exact ⟨hseed, by norm_num⟩
  have hnames := intent_fold_names entFind (some it.name) it.posIntents
    [⟨some it.name, sent, [], 0⟩] (by simp)
  set kept := (it.posIntents.foldl
      (fun acc pi => acc ++ acc.flatMap fun m => pi.matchOn (entFind pi.token) m)
      [⟨some it.name, sent, [], 0⟩]).filter fun m => decide (0 ≤ m.conf) with hkept
  have hne : (kept.map fun m =>
      let c : ℝ := (if 0 < m.matches'.length then m.conf / (m.matches'.length : ℝ) else 0) + 0.5
      { m with conf := Real.sqrt (c * it.simple.matchSent m.sent) }) ≠ [] := by
    intro h0
    rw [List.map_eq_nil_iff] at h0
    rw [h0] at hkeep
    exact absurd hkeep (List.not_mem_nil _)
  obtain ⟨b, hb, hbm, _⟩ := pyMaxByR_cases (fun m : MatchData (List String) => m.conf) _ hne
  refine ⟨b, hb, ?_⟩
  obtain ⟨m0, hm0, rfl⟩ := List.mem_map.mp hbm
  have hm0' : m0 ∈ kept := hm0
  have : m0.name = some it.name := hnames m0 (List.mem_filter.mp hm0').1
  simpa using this

/-- Invariant of the candidate-building fold in `Intent.match`: candidates
carry the intent's name, only keys of already-processed placeholder tokens,
and a confidence of at most half the number of filled slots. -/
def CandInv (nm : String) (processed : List String)
    (m : MatchData (List String)) : Prop :=
  m.name = some nm ∧ (∀ k ∈ m.matches'.map Prod.fst, k ∈ processed) ∧
  m.conf ≤ (m.matches'.length : ℝ) / 2

theorem candInv_mono {nm : String} {p1 p2 : List String}
    {m : MatchData (List String)} (hsub : ∀ k ∈ p1, k ∈ p2)
    (h : CandInv nm p1 m) : CandInv nm p2 m :=
  ⟨h.1, fun k hk => hsub k (h.2.1 k hk), h.2.2⟩

theorem candInv_step {nm : String} {processed : List String}
    {pi : PosIntentM} {entity : Option SimpleIntentM}
    {m m' : MatchData (List String)}
    (hEdge : ∀ s p, pi.edgeL s p ≤ 1 ∧ pi.edgeR s p ≤ 1)
    (hEnt : ∀ e, entity = some e → ∀ s, e.net s ≤ 1)
    (htok : pi.token ∉ processed)
    (hm : CandInv nm processed m) (hm' : m' ∈ pi.matchOn entity m) :
    CandInv nm (processed ++ [pi.token]) m' := by
  obtain ⟨p, hp, rfl⟩ := posMatch_member hm'
  rw [specValidPairs_mem] at hp
  obtain ⟨_, _, _, hl2, hr2, _⟩ := hp
  obtain ⟨hname, hkeys, hconf⟩ := hm
  have hfresh : pi.token ∉ m.matches'.map Prod.fst := fun hc => htok (hkeys _ hc)
  have hmm : (specCand pi entity m p).matches' =
      dictInsert pi.token ((m.sent.drop p.1).take (p.2 + 1 - p.1)) m.matches' := rfl
  refine ⟨hname ▸ rfl, ?_, ?_⟩
  · intro k hk
    rw [hmm, dictInsert_keys_fresh _ hfresh] at hk
    rcases List.mem_append.mp hk with hk | hk
    · exact List.mem_append.mpr (Or.inl (hkeys k hk))
    · simp only [List.mem_singleton] at hk
      subst hk
      exact List.mem_append.mpr (Or.inr (by simp))
  · have hlen : (specCand pi entity m p).matches'.length = m.matches'.length + 1 := by
      rw [hmm]
      exact dictInsert_length_fresh _ hfresh
    have hle := specCand_conf_le hl2 hr2 (hEdge m.sent p.1).1 (hEdge m.sent p.2).2
      (fun e he => hEnt e he _)
    rw [hlen]
    push_cast
    have : (m.matches'.length : ℝ) / 2 + 1 / 2 = ((m.matches'.length : ℝ) + 1) / 2 := by
      ring
    linarith

theorem intent_fold_inv (entFind : String → Option SimpleIntentM) (nm : String)
    (hEnt : ∀ tok e, entFind tok = some e → ∀ s, e.net s ≤ 1) :
    ∀ (pis : List PosIntentM) (processed : List String)
      (acc : List (MatchData (List String))),
      (processed ++ pis.map fun pi => pi.token).Nodup →
      (∀ pi ∈ pis, ∀ s p, pi.edgeL s p ≤ 1 ∧ pi.edgeR s p ≤ 1) →
      (∀ m ∈ acc, CandInv nm processed m) →
      ∀ m ∈ pis.foldl
        (fun acc pi => acc ++ acc.flatMap fun m => pi.matchOn (entFind pi.token) m)
        acc, CandInv nm (processed ++ pis.map fun pi => pi.token) m := by
  intro pis
  induction pis with
  | nil =>
    intro processed acc _ _ hacc
    simpa using hacc
  | cons pi pis ih =>
    intro processed acc hnd hE hacc
    have hre : processed ++ (pi :: pis).map (fun pi => pi.token) =
        (processed ++ [pi.token]) ++ pis.map fun pi => pi.token := by
      simp
    rw [hre] at hnd ⊢
    have htok : pi.token ∉ processed := by
      rw [List.nodup_append] at hnd
      have h1 := hnd.1
      rw [List.nodup_append] at h1
      have := h1.2.2
      intro hc
      exact this hc (by simp)
    simp only [List.foldl_cons]
    refine ih (processed ++ [pi.token]) _ hnd
      (fun q hq => hE q (List.mem_cons_of_mem pi hq)) ?_
    intro m hm
    rcases List.mem_append.mp hm with hm | hm
    · exact candInv_mono (fun k hk => List.mem_append.mpr (Or.inl hk)) (hacc m hm)
    · obtain ⟨m0, hm0, hmm⟩ := List.mem_flatMap.mp hm
      exact candInv_step (hE pi (by simp)) (fun e he s => hEnt pi.token e he s) htok
        (hacc m0 hm0) hmm

/-- C2: for a trained intent (distinct placeholder tokens) whose neural-net
evaluations all lie in `[-1, 1]`, the `MatchData` returned by
`Intent.match` has `conf` in the closed interval `[0, 1]`, even though the
intermediate candidate confidences may leave that range. -/
theorem intent_match_conf_01 (it : IntentM)
    (entFind : String → Option SimpleIntentM) (sent : List String)
    (hN : (it.posIntents.map fun pi => pi.token).Nodup)
    (hS : ∀ s, -1 ≤ it.simple.net s ∧ it.simple.net s ≤ 1)
    (hE : ∀ pi ∈ it.posIntents, ∀ s p,
      (-1 ≤ pi.edgeL s p ∧ pi.edgeL s p ≤ 1) ∧
      (-1 ≤ pi.edgeR s p ∧ pi.edgeR s p ≤ 1))
    (hEnt : ∀ tok e, entFind tok = some e → ∀ s, -1 ≤ e.net s ∧ e.net s ≤ 1) :
    ∃ m, it.matchOn entFind sent = some m ∧ 0 ≤ m.conf ∧ m.conf ≤ 1 := by
  unfold IntentM.matchOn
  obtain ⟨ext, hext⟩ := intent_fold_extends entFind it.posIntents
    [⟨some it.name, sent, [], 0⟩]
  have hseed : (⟨some it.name, sent, [], 0⟩ : MatchData (List String)) ∈
      it.posIntents.foldl
        (fun acc pi => acc ++ acc.flatMap fun m => pi.matchOn (entFind pi.token) m)
        [⟨some it.name, sent, [], 0⟩] := by
    rw [hext]
    simp
  have hinv := intent_fold_inv entFind it.name
    (fun tok e he s => (hEnt tok e he s).2) it.posIntents []
    [⟨some it.name, sent, [], 0⟩] (by simpa using hN)
    (fun pi hpi s p => ⟨((hE pi hpi s p).1).2, ((hE pi hpi s p).2).2⟩)
    (by
      intro m hm
      simp only [List.mem_singleton] at hm
      subst hm
      exact ⟨rfl, by simp, by simp⟩)
  set possible := it.posIntents.foldl
      (fun acc pi => acc ++ acc.flatMap fun m => pi.matchOn (entFind pi.token) m)
      [⟨some it.name, sent, [], 0⟩] with hpossible
  have hkeep : (⟨some it.name, sent, [], 0⟩ : MatchData (List String)) ∈
      possible.filter fun m => decide (0 ≤ m.conf) := by
    rw [List.mem_filter]
    exact ⟨hseed, by norm_num⟩
  have hscoredmem : ∀ m' ∈ (possible.filter fun m => decide (0 ≤ m.conf)).map fun m =>
      let c : ℝ := (if 0 < m.matches'.length then m.conf / (m.matches'.length : ℝ) else 0) + 0.5
      { m with conf := Real.sqrt (c * it.simple.matchSent m.sent) },
      0 ≤ m'.conf ∧ m'.conf ≤ 1 := by
    intro m' hm'
    obtain ⟨m, hm, rfl⟩ := List.mem_map.mp hm'
    obtain ⟨hmp, hm0⟩ := List.mem_filter.mp hm
    have hm0' : (0 : ℝ) ≤ m.conf := by simpa using hm0
    have hinvm := hinv m hmp
    have hconfle : m.conf ≤ (m.matches'.length : ℝ) / 2 := hinvm.2.2
    set c : ℝ :=
      (if 0 < m.matches'.length then m.conf / (m.matches'.length : ℝ) else 0) + 0.5
      with hc
    have hc12 : 1 / 2 ≤ c ∧ c ≤ 1 := by
      rw [hc]
      by_cases hlen : 0 < m.matches'.length
      · rw [if_pos hlen]
        have hlen' : (0 : ℝ) < (m.matches'.length : ℝ) := by
          exact_mod_cast hlen
        constructor
        · have : (0 : ℝ) ≤ m.conf / (m.matches'.length : ℝ) :=
            div_nonneg hm0' (le_of_lt hlen')
          linarith
        · have : m.conf / (m.matches'.length : ℝ) ≤ 1 / 2 := by
            rw [div_le_iff hlen']
            calc m.conf ≤ (m.matches'.length : ℝ) / 2 := hconfle
              _ = 1 / 2 * (m.matches'.length : ℝ) := by ring
          linarith
      · rw [if_neg hlen]
        norm_num
    have hs01 : 0 ≤ it.simple.matchSent m.sent ∧ it.simple.matchSent m.sent ≤ 1 := by
      unfold SimpleIntentM.matchSent
      exact ⟨le_max_left 0 _, max_le (by norm_num) (hS m.sent).2⟩
    constructor
    · exact Real.sqrt_nonneg _
    · refine Real.sqrt_le_one.mpr ?_
      calc c * it.simple.matchSent m.sent ≤ 1 * 1 :=
            mul_le_mul hc12.2 hs01.2 hs01.1 (by norm_num)
        _ = 1 := one_mul 1
  have hne : ((possible.filter fun m => decide (0 ≤ m.conf)).map fun m =>
      let c : ℝ := (if 0 < m.matches'.length then m.conf / (m.matches'.length : ℝ) else 0) + 0.5
      { m with conf := Real.sqrt (c * it.simple.matchSent m.sent) }) ≠ [] := by
    intro h0
    rw [List.map_eq_nil_iff] at h0
    rw [h0] at hkeep
    exact absurd hkeep (List.not_mem_nil _)
  obtain ⟨b, hb, hbm, _⟩ := pyMaxByR_cases (fun m : MatchData (List String) => m.conf) _ hne
  exact ⟨b, hb, hscoredmem b hbm⟩

/-- Witness for C2 on a concrete trained intent with constant-zero nets. -/
theorem intent_match_conf_01_witness :
    ∃ m, IntentM.matchOn ⟨"i", ⟨"i", fun _ => 0⟩, []⟩ (fun _ => none) ["x"] = some m ∧
      0 ≤ m.conf ∧ m.conf ≤ 1 :=
  intent_match_conf_01 ⟨"i", ⟨"i", fun _ => 0⟩, []⟩ (fun _ => none) ["x"]
    (by simp)
    (by intro s; norm_num)
    (by intro pi hpi; simp at hpi)
    (by intro tok e he; simp at he)

end Padatious
